import Mathlib

/-!
The package rofi: history reordering, script-mode and blocks-mode protocol

A shallow embedding of the Go package `rofi` (`history.go`, `main.go`,
`rofiblocks.go`).

* Go strings are modelled by `String`, that is, they are taken to be valid
  UTF-8.  The package only compares strings, concatenates them and splits them
  on the ASCII separators `|` and `||`, which acts the same on UTF-8 bytes and
  on characters.  The history file stores the list as a JSON array of strings;
  writing such a list and reading it back gives the same list.
* Go slices are modelled by `GoSlice`: a backing array together with the length
  of the slice, because the history loops delete from a slice while ranging
  over it and the stale tail of the backing array is observable.
* Go `int` is a 64-bit signed integer, modelled by `Int` with explicit
  wrap-around (`wrapInt`) where an operation can overflow.
* A run-time panic and `log.Fatalf` are modelled by `Except Failure`.
-/

set_option autoImplicit false
set_option linter.dupNamespace false

/-! ## Failures -/

/-- Ways in which the Go code stops abnormally. -/
inductive Failure where
  /-- A run-time panic: index or slice bounds out of range. -/
  | outOfRange
  /-- The function `log.Fatalf`: the message is logged and the process exits. -/
  | fatal
  deriving DecidableEq, Repr

instance instDecidableEqExcept {ε α : Type} [DecidableEq ε] [DecidableEq α] :
    DecidableEq (Except ε α)
  | .ok a, .ok b => if h : a = b then isTrue (by rw [h]) else isFalse (by intro h1; cases h1; exact h rfl)
  | .error a, .error b => if h : a = b then isTrue (by rw [h]) else isFalse (by intro h1; cases h1; exact h rfl)
  | .ok _, .error _ => isFalse (by intro h1; cases h1)
  | .error _, .ok _ => isFalse (by intro h1; cases h1)

/-- A Go pointer result: `none` is `nil`. -/
abbrev Pointer (α : Type) : Type := Option α

/-! ## Go slices -/

/-- A Go slice whose offset in its backing array is 0: `arr` is the backing
array (`cap = arr.length`) and `len` the length of the slice. -/
structure GoSlice (α : Type) where
  arr : List α
  len : Nat
  deriving DecidableEq, Repr

/-- The slice made from a list, with no spare capacity.  The loops below never
read or write past the length the slice has when they start, so spare capacity
is not observable. -/
def GoSlice.ofList {α : Type} (l : List α) : GoSlice α :=
  { arr := l, len := l.length }

/-- The elements of the slice, `s[0], ..., s[len-1]`. -/
def GoSlice.toList {α : Type} (s : GoSlice α) : List α :=
  s.arr.take s.len

/-- The statement `s = append(s[:i], s[i+1:]...)`.
`s[i+1:]` panics unless `i+1 <= len(s)`, and `s[:i]` unless `i <= cap(s)`.  The
result has `len(s)-1 <= cap(s)` elements, so `append` writes in place: the
elements `i+1 .. len-1` of the backing array move one place down and the cell
`len-1` keeps its old content. -/
def GoSlice.deleteAt {α : Type} (s : GoSlice α) (i : Nat) : Except Failure (GoSlice α) :=
  if i + 1 ≤ s.len ∧ i ≤ s.arr.length then
    .ok { arr := s.arr.take i ++ ((s.arr.drop (i + 1)).take (s.len - (i + 1)) ++ s.arr.drop (s.len - 1)),
          len := s.len - 1 }
  else
    .error .outOfRange

/-- The loop
`for i, x := range s { if p(x) { s = append(s[:i], s[i+1:]...); acc = append(acc, x) } }`
from index `i` on, with `k` iterations left.  The range expression is evaluated
once, so the number of iterations is the length of `s` before the loop, while
`x` is read from the shared backing array at each iteration. -/
def rangeDelete {α : Type} (p : α → Bool) :
    Nat → Nat → GoSlice α × List α → Except Failure (GoSlice α × List α)
  | 0, _, st => .ok st
  | k + 1, i, (s, acc) =>
    match s.arr.get? i with
    | none => .error .outOfRange
    | some x =>
      if p x then
        match s.deleteAt i with
        | .error e => .error e
        | .ok s1 => rangeDelete p k (i + 1) (s1, acc ++ [x])
      else
        rangeDelete p k (i + 1) (s, acc)

/-! ## Data model (`main.go`, `rofiblocks.go`) -/

/-- Modelled from the spec: the fields `Label`, `UseMarkup`, `IsUrgent` and
`IsHighlighted` of the struct `Option`, which `rofiblocks.go` reads and whose
declaration is not part of the sources (the data model of the spec lists them).
The fields `Category`, `Cmds`, `Icon`, `Name`, `Value` and `IsMultiline` are
the struct `Option` declared in `main.go`. -/
structure rofi.Option where
  Category : String := ""
  Cmds : List String := []
  Icon : String := ""
  Name : String := ""
  Value : String := ""
  IsMultiline : Bool := false
  Label : String := ""
  UseMarkup : Bool := false
  IsUrgent : Bool := false
  IsHighlighted : Bool := false
  deriving DecidableEq, Repr

/-- The struct `Value`: a resolved selection. -/
structure rofi.Value where
  Cmd : String
  Value : String
  deriving DecidableEq, Repr

/-- The constant `maxHistoryCount`. -/
def rofi.maxHistoryCount : Nat := 5

/-! ## History (`history.go`, `main.go`) -/

/-- One round of the outer loop of `SortUsingHistory`: the inner loop
`for i, opt := range opts { if h == opt.Value { ... } }`. -/
def rofi.sortStep (st : GoSlice rofi.Option × List rofi.Option) (h : String) :
    Except Failure (GoSlice rofi.Option × List rofi.Option) :=
  rangeDelete (fun opt => h == opt.Value) st.1.len 0 st

/-- The outer loop `for _, h := range history { ... }`. -/
def rofi.sortLoop : List String → GoSlice rofi.Option × List rofi.Option →
    Except Failure (GoSlice rofi.Option × List rofi.Option)
  | [], st => .ok st
  | h :: hs, st =>
    match rofi.sortStep st h with
    | .error e => .error e
    | .ok st1 => rofi.sortLoop hs st1

/-- The function `SortUsingHistory` of `history.go` (lines 35-46), given the
history list that was read from the cache file. -/
def rofi.SortUsingHistory (opts : List rofi.Option) (history : List String) :
    Except Failure (List rofi.Option) :=
  match rofi.sortLoop history (GoSlice.ofList opts, []) with
  | .error e => .error e
  | .ok (s, prio) => .ok (prio ++ s.toList)

/-- The method `Options.PrioritizeHistory` of `main.go` (lines 116-127), given
the history list: the same statements as `SortUsingHistory`, the result being
stored in the receiver. -/
def rofi.PrioritizeHistory (opts : List rofi.Option) (history : List String) :
    Except Failure (List rofi.Option) :=
  match rofi.sortLoop history (GoSlice.ofList opts, []) with
  | .error e => .error e
  | .ok (s, prio) => .ok (prio ++ s.toList)

/-- The list update of `SaveToHistory` (`history.go` lines 83-96, `main.go`
lines 284-296): the "shifting" loop, which is the loop of `rangeDelete` without
an accumulator, followed by the construction of `nextHistory`.  `history` is
the list read from the file (`nil` when the file is new or unreadable). -/
def rofi.SaveToHistory (history : List String) (value : String) :
    Except Failure (List String) :=
  match rangeDelete (fun val => val == value) history.length 0 (GoSlice.ofList history, []) with
  | .error e => .error e
  | .ok (s, _) =>
    let history1 := s.toList
    if history1.length ≥ rofi.maxHistoryCount then
      .ok ([value] ++ history1.take (rofi.maxHistoryCount - 1))
    else
      .ok ([value] ++ history1)

/-- A sequence of saves, each reading the list the previous one wrote. -/
def rofi.saveAll : List String → List String → Except Failure (List String)
  | [], history => .ok history
  | v :: vs, history =>
    match rofi.SaveToHistory history v with
    | .error e => .error e
    | .ok history1 => rofi.saveAll vs history1

/-! ## Go library functions -/

/-- The first occurrence of the non-empty separator `sep` in `s`: the text
before it and the text after it (`strings.Index` and the two slicings of
`genSplit`). -/
def strings.cut (sep : List Char) : List Char → Option (List Char × List Char)
  | [] => none
  | c :: rest =>
    if sep.isPrefixOf (c :: rest) then
      some ([], (c :: rest).drop sep.length)
    else
      match strings.cut sep rest with
      | none => none
      | some (a, b) => some (c :: a, b)

/-- The loop of `genSplit`: cut at the leftmost occurrence of the separator
and go on with the rest.  The first argument bounds the number of cuts. -/
def strings.splitLoop (sep : List Char) : Nat → List Char → List (List Char)
  | 0, s => [s]
  | n + 1, s =>
    match strings.cut sep s with
    | none => [s]
    | some (a, b) => a :: strings.splitLoop sep n b

/-- The Go function `strings.Split(s, sep)`: the substrings between the
leftmost non-overlapping occurrences of `sep`; with an empty separator the
string is split after each character.  Every cut removes at least one
character, so `s.length` cuts are enough. -/
def strings.Split (s sep : String) : List String :=
  if sep.data = [] then s.data.map (fun c => String.mk [c])
  else (strings.splitLoop sep.data s.length s.data).map String.mk

/-- The Go function `strings.Join(elems, sep)`. -/
def strings.Join : List String → String → String
  | [], _ => ""
  | [a], _ => a
  | a :: b :: rest, sep => a ++ sep ++ strings.Join (b :: rest) sep

/-- The error values of `strconv`: `ErrSyntax` and `ErrRange`. -/
inductive strconv.NumError where
  | malformed
  | tooLarge
  deriving DecidableEq, Repr

/-- The value of a decimal digit. -/
def strconv.digit (c : Char) : Option Nat :=
  if 48 ≤ c.toNat ∧ c.toNat ≤ 57 then some (c.toNat - 48) else none

def strconv.maxUint64 : Nat := 18446744073709551615

def strconv.maxInt64 : Int := 9223372036854775807

def strconv.minInt64 : Int := -9223372036854775808

/-- The loop of `strconv.ParseUint(s, 10, 64)`: a byte that is not a digit is a
syntax error, and an overflow is reported as soon as it happens, before the
remaining bytes are looked at. -/
def strconv.parseUintLoop : List Char → Nat → Nat × Option strconv.NumError
  | [], n => (n, none)
  | c :: cs, n =>
    match strconv.digit c with
    | none => (0, some .malformed)
    | some d =>
      if n ≥ strconv.maxUint64 / 10 + 1 then (strconv.maxUint64, some .tooLarge)
      else if n * 10 + d > strconv.maxUint64 then (strconv.maxUint64, some .tooLarge)
      else strconv.parseUintLoop cs (n * 10 + d)

/-- The Go function `strconv.ParseUint(s, 10, 64)`. -/
def strconv.ParseUint (s : List Char) : Nat × Option strconv.NumError :=
  if s = [] then (0, some .malformed) else strconv.parseUintLoop s 0

/-- The sign handling and range check of `strconv.ParseInt(s, 10, 64)`, applied
to the digits that follow the sign. -/
def strconv.parseSigned (neg : Bool) (digits : List Char) : Int × Option strconv.NumError :=
  match strconv.ParseUint digits with
  | (_, some .malformed) => (0, some .malformed)
  | (un, _) =>
    if !neg && un ≥ 9223372036854775808 then (strconv.maxInt64, some .tooLarge)
    else if neg && un > 9223372036854775808 then (strconv.minInt64, some .tooLarge)
    else if neg then (-(un : Int), none)
    else ((un : Int), none)

/-- The Go function `strconv.Atoi(s)` on a 64-bit platform, which is
`ParseInt(s, 10, 0)` (the fast path for short strings computes the same
result): the value and the error. -/
def strconv.Atoi (s : String) : Int × Option strconv.NumError :=
  match s.data with
  | [] => (0, some .malformed)
  | '+' :: rest => strconv.parseSigned false rest
  | '-' :: rest => strconv.parseSigned true rest
  | c :: rest => strconv.parseSigned false (c :: rest)

/-- Wrap-around of 64-bit signed arithmetic. -/
def wrapInt (x : Int) : Int :=
  (x + 9223372036854775808) % 18446744073709551616 - 9223372036854775808

/-- The index expression `l[i]` on a slice: `none` stands for the panic
"index out of range". -/
def goIndex {α : Type} (l : List α) (i : Int) : Option α :=
  if i < 0 then none else l.get? i.toNat

/-! ## Script mode (`main.go`) -/

/-- The method `Option.Print`: the lines written to standard output (log
messages go to the logger, not to standard output). -/
def rofi.Option.Print (o : rofi.Option) : List String :=
  if o.Name == "" then []
  else if o.Cmds.length < 1 then []
  else
    let str := o.Name
    let str :=
      if o.Category != "" then
        let separator := if o.IsMultiline then "\r" else " "
        str ++ separator ++ o.Category
      else str
    let str := str ++ "\x00info\x1f" ++ strings.Join ([o.Value] ++ o.Cmds) "|"
    let str := if o.Icon != "" then str ++ "\x1ficon\x1f" ++ o.Icon else str
    [str]

/-- The environment variables read by the script mode. -/
structure rofi.Env where
  ROFI_INFO : String
  ROFI_RETV : String
  deriving DecidableEq, Repr

/-- The function `GetState`: the error of `Atoi` is dropped. -/
def rofi.GetState (env : rofi.Env) : Int :=
  (strconv.Atoi env.ROFI_RETV).1

/-- The function `GetValue`: `.ok none` is the `nil` result. -/
def rofi.GetValue (env : rofi.Env) : Except Failure (Pointer rofi.Value) :=
  let v := env.ROFI_INFO
  if v != "" && rofi.GetState env != 0 then
    let index := wrapInt (rofi.GetState env - 1)
    let index := if index > 8 then index - 8 else index
    match strings.Split v "|" with
    | [] => .error .outOfRange
    | value0 :: cmds =>
      let index := if (cmds.length : Int) ≤ index then 0 else index
      match goIndex cmds index with
      | none => .error .outOfRange
      | some cmd => .ok (some { Cmd := cmd, Value := value0 })
  else
    .ok none

/-! ## Blocks mode (`rofiblocks.go`) -/

def rofi.eventNameSelectedEntry : String := "SELECT_ENTRY"

def rofi.eventNameCustomEntry : String := "ACTIVE_ENTRY"

def rofi.eventNameCustomEntryIndex : String := "CUSTOM_KEY"

/-- The method `eventName.IsValid`. -/
def rofi.eventName.IsValid (en : String) : Bool :=
  en == rofi.eventNameSelectedEntry || en == rofi.eventNameCustomEntry ||
    en == rofi.eventNameCustomEntryIndex

/-- The struct `event`, as decoded from one JSON object of standard input (a
field that is absent is the empty string). -/
structure rofi.event where
  Name : String := ""
  Value : String := ""
  Index : String := ""
  deriving DecidableEq, Repr

/-- The method `event.isValid`. -/
def rofi.event.isValid (e : rofi.event) : Bool :=
  if !rofi.eventName.IsValid e.Name then false
  else if (e.Name == rofi.eventNameCustomEntry || e.Name == rofi.eventNameSelectedEntry)
      && e.Value == "" then false
  else
    let i := (strconv.Atoi e.Index).1
    if e.Name == rofi.eventNameCustomEntryIndex && i < 1 then false
    else true

/-- The function `getValue`. -/
def rofi.getValue (eventValue : String) (index : Int) : Except Failure rofi.Value :=
  let output := strings.Split eventValue "||"
  if output.length < 2 then .error .fatal
  else
    match output with
    | [] => .error .outOfRange
    | value0 :: cmds =>
      let index := if (cmds.length : Int) ≤ index then 0 else index
      match goIndex cmds index with
      | none => .error .outOfRange
      | some cmd => .ok { Cmd := cmd, Value := value0 }

/-- What a run of `broadcastEvents` produces: the values sent on the channel,
in order, and the failure that ends the loop. -/
structure rofi.Run where
  sent : List rofi.Value
  stop : Failure
  deriving DecidableEq, Repr

/-- The statement `ch <- val` followed by the rest of the run. -/
def rofi.Run.send (val : rofi.Value) (r : rofi.Run) : rofi.Run :=
  { r with sent := val :: r.sent }

/-- The function `broadcastEvents` on the stream of events decoded from
standard input.  At the end of the stream (or at a malformed object, which is
where the list stops) `Decode` fails and `log.Fatalf` ends the process. -/
def rofi.broadcastEvents : List rofi.event → rofi.Run
  | [] => { sent := [], stop := .fatal }
  | [ev] =>
    if !ev.isValid then { sent := [], stop := .fatal }
    else if ev.Name == rofi.eventNameCustomEntry then { sent := [], stop := .fatal }
    else
      match rofi.getValue ev.Value 0 with
      | .error e => { sent := [], stop := e }
      | .ok val => rofi.Run.send val { sent := [], stop := .fatal }
  | ev :: indexEv :: rest =>
    if !ev.isValid then rofi.broadcastEvents (indexEv :: rest)
    else if ev.Name == rofi.eventNameCustomEntry then
      if indexEv.Name != rofi.eventNameCustomEntryIndex && !indexEv.isValid then
        rofi.broadcastEvents rest
      else
        match rofi.getValue ev.Value (strconv.Atoi indexEv.Index).1 with
        | .error e => { sent := [], stop := e }
        | .ok val => rofi.Run.send val (rofi.broadcastEvents rest)
    else
      match rofi.getValue ev.Value 0 with
      | .error e => { sent := [], stop := e }
      | .ok val => rofi.Run.send val (rofi.broadcastEvents (indexEv :: rest))

/-- The struct `blockOption`: one line of the blocks-mode screen. -/
structure rofi.blockOption where
  Text : String := ""
  Icon : String := ""
  Data : String := ""
  Urgent : Bool := false
  Highlight : Bool := false
  Markup : Bool := false
  deriving DecidableEq, Repr

/-- The function `mapOptions`: the loop appends one record per printable option
to `bos`, so the records come in the order of the options. -/
def rofi.mapOptions : List rofi.Option → List rofi.blockOption
  | [] => []
  | o :: opts =>
    if o.Label == "" then rofi.mapOptions opts
    else if o.Cmds.length < 1 then rofi.mapOptions opts
    else
      let label := o.Label
      let label :=
        if o.Category != "" then
          let separator := if o.IsMultiline then "\r" else " "
          label ++ separator ++ o.Category
        else label
      { Icon := o.Icon,
        Text := label,
        Data := strings.Join ([o.Value] ++ o.Cmds) "||",
        Markup := o.UseMarkup,
        Urgent := o.IsUrgent,
        Highlight := o.IsHighlighted } :: rofi.mapOptions opts

/-- Where the loop of `broadcastEvents` stands: waiting for the next event
(Idle), waiting for the event that follows an ACTIVE_ENTRY event, or ended by
`getValue`. -/
inductive rofi.DecoderState where
  | idle
  | awaitingIndex (pending : rofi.event)
  | stopped (f : Failure)
  deriving DecidableEq, Repr

/-- The state of the loop of `broadcastEvents` once it has consumed the events
of a list and is about to decode the next one. -/
def rofi.stateAfter : List rofi.event → rofi.DecoderState
  | [] => .idle
  | [ev] =>
    if !ev.isValid then .idle
    else if ev.Name == rofi.eventNameCustomEntry then .awaitingIndex ev
    else
      match rofi.getValue ev.Value 0 with
      | .error e => .stopped e
      | .ok _ => .idle
  | ev :: indexEv :: rest =>
    if !ev.isValid then rofi.stateAfter (indexEv :: rest)
    else if ev.Name == rofi.eventNameCustomEntry then
      if indexEv.Name != rofi.eventNameCustomEntryIndex && !indexEv.isValid then
        rofi.stateAfter rest
      else
        match rofi.getValue ev.Value (strconv.Atoi indexEv.Index).1 with
        | .error e => .stopped e
        | .ok _ => rofi.stateAfter rest
    else
      match rofi.getValue ev.Value 0 with
      | .error e => .stopped e
      | .ok _ => rofi.stateAfter (indexEv :: rest)

/-- The text that follows the first element in a joined list: each further
element preceded by the separator. -/
def sepTail (sep : String) : List String → String
  | [] => ""
  | b :: l => sep ++ b ++ sepTail sep l

/-! ## Sample data -/

def optA : rofi.Option := { Name := "A", Value := "A", Cmds := ["run"] }
def optB : rofi.Option := { Name := "B", Value := "B", Cmds := ["run"] }
def optC : rofi.Option := { Name := "C", Value := "C", Cmds := ["run"] }
def optB1 : rofi.Option := { Name := "B1", Value := "b", Cmds := ["run"] }
def optB2 : rofi.Option := { Name := "B2", Value := "b", Cmds := ["run"] }
def optL : rofi.Option :=
  { Label := "L", Value := "v1", Cmds := ["open", "edit"], Category := "cat", IsUrgent := true }
def optL2 : rofi.Option :=
  { Name := "N", Value := "v1", Cmds := ["open", "edit"], Category := "cat", Icon := "folder" }

/-! ## The delete-while-ranging loop -/

theorem rangeDelete_no_match {α : Type} (p : α → Bool) (k : Nat) :
    ∀ (i : Nat) (s : GoSlice α) (acc : List α), i + k ≤ s.arr.length →
      (∀ x ∈ (s.arr.drop i).take k, p x = false) →
      rangeDelete p k i (s, acc) = .ok (s, acc) := by
  induction k with
  | zero => intro i s acc _ _; rfl
  | succ k ih =>
    intro i s acc hlen hp
    have hi : i < s.arr.length := by omega
    have hdrop : s.arr.drop i = s.arr[i] :: s.arr.drop (i + 1) := List.drop_eq_getElem_cons hi
    have hget : s.arr.get? i = some s.arr[i] := by
      simp [List.getElem?_eq_getElem hi]
    rw [hdrop, List.take_succ_cons] at hp
    have hx : p s.arr[i] = false := hp _ (List.mem_cons_self _ _)
    simp only [rangeDelete, hget, hx]
    exact ih (i + 1) s acc (by omega) (fun x hxm => hp x (List.mem_cons_of_mem _ hxm))

theorem GoSlice.deleteAt_decomp {α : Type} (s : GoSlice α) (pre post rest : List α) (x : α)
    (harr : s.arr = pre ++ x :: (post ++ rest)) (hlen : s.len = pre.length + (post.length + 1)) :
    s.deleteAt pre.length =
      .ok { arr := pre ++ (post ++ ((x :: post).drop post.length ++ rest)),
            len := pre.length + post.length } := by
  have h1 : s.arr.take pre.length = pre := by simp [harr]
  have h2 : (s.arr.drop (pre.length + 1)).take (s.len - (pre.length + 1)) = post := by
    have e : s.len - (pre.length + 1) = post.length := by omega
    rw [e, harr, ← List.drop_drop, List.drop_left]
    simp
  have h3 : s.arr.drop (s.len - 1) = (x :: post).drop post.length ++ rest := by
    have e : s.len - 1 = pre.length + post.length := by omega
    have e2 : x :: (post ++ rest) = (x :: post) ++ rest := rfl
    rw [e, harr, ← List.drop_drop, List.drop_left, e2,
      List.drop_append_of_le_length (by simp)]
  have hc : pre.length + 1 ≤ s.len ∧ pre.length ≤ s.arr.length := by
    constructor
    · omega
    · simp [harr]
  have hl : s.len - 1 = pre.length + post.length := by omega
  simp only [GoSlice.deleteAt, hc, h1, h2, h3]
  simp [hl]

theorem stale_tail_no_match {α : Type} (p : α → Bool) (pre post rest : List α) (x : α)
    (hp : ∀ z ∈ post, p z = false) :
    ∀ z ∈ ((pre ++ (post ++ ((x :: post).drop post.length ++ rest))).drop (pre.length + 1)).take
      post.length, p z = false := by
  intro z hz
  rw [← List.drop_drop, List.drop_left] at hz
  cases post with
  | nil => simp at hz
  | cons y post2 =>
    have e1 : (y :: post2 ++ ((x :: y :: post2).drop (y :: post2).length ++ rest)).drop 1
        = post2 ++ ((y :: post2).drop post2.length ++ rest) := by
      simp
    rw [e1, List.take_append_eq_append_take] at hz
    rcases List.mem_append.1 hz with h | h
    · exact hp z (List.mem_cons_of_mem _ (List.mem_of_mem_take h))
    · have e2 : (y :: post2).length - post2.length = 1 := by simp
      have e3 : ((y :: post2).drop post2.length).length = 1 := by simp
      rw [e2, List.take_append_of_le_length (by omega)] at h
      exact hp z (List.mem_of_mem_drop (List.mem_of_mem_take h))

theorem rangeDelete_at_most_one {α : Type} (p : α → Bool) :
    ∀ (post pre rest : List α) (s : GoSlice α) (acc : List α),
      s.arr = pre ++ (post ++ rest) → s.len = pre.length + post.length →
      (post.filter p).length ≤ 1 →
      ∃ s1, rangeDelete p post.length pre.length (s, acc) = .ok (s1, acc ++ post.filter p) ∧
        s1.toList = pre ++ post.filter (fun z => !p z) ∧ s1.len ≤ s1.arr.length := by
  intro post
  induction post with
  | nil =>
    intro pre rest s acc harr hlen _
    refine ⟨s, by simp [rangeDelete], ?_, ?_⟩
    · simp [GoSlice.toList, harr, hlen]
    · simp [harr, hlen]
  | cons x post ih =>
    intro pre rest s acc harr hlen hone
    have hget : s.arr.get? pre.length = some x := by
      rw [harr, List.get?_eq_getElem?, List.getElem?_append_right (Nat.le_refl _)]
      simp
    cases hpx : p x with
    | false =>
      obtain ⟨s1, h1, h2, h3⟩ := ih (pre ++ [x]) rest s acc (by simp [harr]) (by simp [hlen]; omega)
        (by simpa [List.filter_cons, hpx] using hone)
      refine ⟨s1, ?_, ?_, h3⟩
      · simp only [List.length_cons, rangeDelete, hget, hpx]
        simpa [List.filter_cons, hpx] using h1
      · simpa [List.filter_cons, hpx] using h2
    | true =>
      have hnone : ∀ z ∈ post, p z = false := by
        intro z hz
        by_contra hc
        have hzt : p z = true := by simpa using hc
        have : z ∈ post.filter p := List.mem_filter.2 ⟨hz, hzt⟩
        have hpos : 0 < (post.filter p).length := List.length_pos_of_mem this
        rw [List.filter_cons, if_pos hpx, List.length_cons] at hone
        omega
      have hfil : post.filter p = [] := by
        rw [List.filter_eq_nil_iff]
        intro z hz
        simp [hnone z hz]
      have hfil2 : post.filter (fun z => !p z) = post := by
        rw [List.filter_eq_self]
        intro z hz
        simp [hnone z hz]
      have hdel := GoSlice.deleteAt_decomp s pre post rest x harr (by simp [hlen])
      refine ⟨{ arr := pre ++ (post ++ ((x :: post).drop post.length ++ rest)),
                len := pre.length + post.length }, ?_, ?_, ?_⟩
      · simp only [List.length_cons, rangeDelete, hget, hpx, hdel]
        simp only [List.filter_cons, hpx, hfil]
        exact rangeDelete_no_match p post.length (pre.length + 1) _ _ (by simp; omega)
          (stale_tail_no_match p pre post rest x hnone)
      · simp only [GoSlice.toList, List.filter_cons, hpx, hfil2]
        rw [← List.append_assoc, ← List.length_append, List.take_left]
        simp
      · simp

theorem rangeDelete_slice {α : Type} (p : α → Bool) (s : GoSlice α) (acc : List α)
    (hcap : s.len ≤ s.arr.length) (hone : (s.toList.filter p).length ≤ 1) :
    ∃ s1, rangeDelete p s.len 0 (s, acc) = .ok (s1, acc ++ s.toList.filter p) ∧
      s1.toList = s.toList.filter (fun z => !p z) ∧ s1.len ≤ s1.arr.length := by
  have hl : s.toList.length = s.len := by simp [GoSlice.toList, hcap]
  have harr : s.arr = [] ++ (s.toList ++ s.arr.drop s.len) := by
    simp [GoSlice.toList]
  obtain ⟨s1, h1, h2, h3⟩ :=
    rangeDelete_at_most_one p s.toList [] (s.arr.drop s.len) s acc harr (by simp [hl]) hone
  refine ⟨s1, ?_, ?_, h3⟩
  · rw [hl] at h1
    exact h1
  · simpa using h2

theorem filter_key_length_le_one {α β : Type} [DecidableEq β] (f : α → β) (b : β) :
    ∀ (l : List α), (l.map f).Nodup → (l.filter (fun x => b == f x)).length ≤ 1 := by
  intro l
  induction l with
  | nil => intro _; simp
  | cons x l ih =>
    intro hnd
    rw [List.map_cons, List.nodup_cons] at hnd
    by_cases hx : b = f x
    · have hnil : l.filter (fun y => b == f y) = [] := by
        rw [List.filter_eq_nil_iff]
        intro y hy
        simp only [beq_iff_eq]
        intro hby
        exact hnd.1 (List.mem_map.2 ⟨y, hy, by rw [← hby, hx]⟩)
      have hbx : (b == f x) = true := by simp [hx]
      rw [List.filter_cons, if_pos hbx, hnil]
      simp
    · have := ih hnd.2
      simpa [List.filter_cons, hx] using this

/-! ## History: `SaveToHistory` -/

theorem filter_eq_length_le_one (v : String) (h : List String) (hnd : h.Nodup) :
    (h.filter (fun val => val == v)).length ≤ 1 := by
  have h1 := filter_key_length_le_one (fun x : String => x) v h (by simpa using hnd)
  have h2 : h.filter (fun val => val == v) = h.filter (fun x => v == x) := by
    apply List.filter_congr
    intro x _
    by_cases hx : x = v
    · simp [hx]
    · have hx2 : ¬ v = x := fun e => hx e.symm
      simp [hx, hx2]
  rw [h2]
  exact h1

theorem SaveToHistory_of_nodup (h : List String) (v : String) (hnd : h.Nodup) :
    rofi.SaveToHistory h v = .ok ((v :: h.filter (fun x => x != v)).take rofi.maxHistoryCount) := by
  have hs : (GoSlice.ofList h).toList = h := by simp [GoSlice.ofList, GoSlice.toList]
  obtain ⟨s1, h1, h2, _⟩ := rangeDelete_slice (fun val => val == v) (GoSlice.ofList h) []
    (by simp [GoSlice.ofList]) (by rw [hs]; exact filter_eq_length_le_one v h hnd)
  have hlen : (GoSlice.ofList h).len = h.length := rfl
  rw [hlen] at h1
  rw [hs] at h2
  have h3 : s1.toList = h.filter (fun x => x != v) := by
    rw [h2]
    rfl
  unfold rofi.SaveToHistory
  rw [h1]
  simp only [h3, rofi.maxHistoryCount]
  by_cases hc : (h.filter (fun x => x != v)).length ≥ 5
  · simp [hc]
  · simp only [hc, if_false]
    have : (h.filter (fun x => x != v)).length ≤ 4 := by omega
    simp [List.take_of_length_le this]

theorem saved_list_nodup (h : List String) (v : String) (hnd : h.Nodup) :
    ((v :: h.filter (fun x => x != v)).take rofi.maxHistoryCount).Nodup := by
  apply List.Nodup.sublist (List.take_sublist _ _)
  rw [List.nodup_cons]
  constructor
  · simp [List.mem_filter]
  · exact hnd.filter _

theorem saveAll_invariant : ∀ (vs : List String) (h : List String), h.Nodup → vs ≠ [] →
    ∃ l, rofi.saveAll vs h = .ok l ∧ l.length ≤ rofi.maxHistoryCount ∧ l.Nodup ∧
      l.head? = vs.getLast? := by
  intro vs
  induction vs with
  | nil => intro h _ hne; exact absurd rfl hne
  | cons v vs ih =>
    intro h hnd _
    have hstep := SaveToHistory_of_nodup h v hnd
    have hnd1 := saved_list_nodup h v hnd
    cases vs with
    | nil =>
      refine ⟨_, ?_, ?_, hnd1, ?_⟩
      · simp only [rofi.saveAll, hstep]
      · simp [rofi.maxHistoryCount]
      · simp [rofi.maxHistoryCount]
    | cons w ws =>
      obtain ⟨l, h1, h2, h3, h4⟩ := ih _ hnd1 (by simp)
      refine ⟨l, ?_, h2, h3, ?_⟩
      · rw [rofi.saveAll, hstep]
        exact h1
      · rw [h4]
        simp [List.getLast?_cons_cons]

/-! ## History: `SortUsingHistory` -/

theorem pairwise_of_length_le_one {α : Type} (R : α → α → Prop) (l : List α)
    (h : l.length ≤ 1) : l.Pairwise R := by
  cases l with
  | nil => exact List.Pairwise.nil
  | cons a t =>
    cases t with
    | nil => exact List.pairwise_singleton R a
    | cons b t2 => simp at h

theorem sortLoop_distinct : ∀ (history : List String) (s : GoSlice rofi.Option)
    (prio : List rofi.Option), s.len ≤ s.arr.length →
    (s.toList.map (fun o => o.Value)).Nodup →
    ∃ s1 P, rofi.sortLoop history (s, prio) = .ok (s1, prio ++ P) ∧
      s1.toList = s.toList.filter (fun o => !decide (o.Value ∈ history)) ∧
      P.Perm (s.toList.filter (fun o => decide (o.Value ∈ history))) ∧
      P.Pairwise (fun a b => history.indexOf a.Value < history.indexOf b.Value) := by
  intro history
  induction history with
  | nil =>
    intro s prio _ _
    exact ⟨s, [], by simp [rofi.sortLoop], by simp, by simp, List.Pairwise.nil⟩
  | cons h hs ih =>
    intro s prio hcap hnd
    have hone := filter_key_length_le_one (fun o : rofi.Option => o.Value) h s.toList hnd
    obtain ⟨s1, h1, h2, h3⟩ := rangeDelete_slice (fun opt : rofi.Option => h == opt.Value) s prio
      hcap hone
    have hnd1 : (s1.toList.map (fun o => o.Value)).Nodup := by
      rw [h2]
      exact hnd.sublist ((List.filter_sublist _).map _)
    obtain ⟨s2, P, g1, g2, g3, g4⟩ := ih s1 (prio ++ s.toList.filter (fun opt => h == opt.Value))
      h3 hnd1
    refine ⟨s2, s.toList.filter (fun opt => h == opt.Value) ++ P, ?_, ?_, ?_, ?_⟩
    · simp only [rofi.sortLoop, rofi.sortStep, h1]
      rw [g1, List.append_assoc]
    · rw [g2, h2, List.filter_filter]
      apply List.filter_congr
      intro o _
      by_cases e : h = o.Value
      · simp [e]
      · have e2 : ¬ o.Value = h := fun e3 => e e3.symm
        simp [e, e2]
    · have hsplit := (List.filter_append_perm (fun opt : rofi.Option => h == opt.Value)
        (s.toList.filter (fun o => decide (o.Value ∈ h :: hs)))).symm
      refine List.Perm.trans ?_ hsplit.symm
      rw [List.filter_filter, List.filter_filter]
      have e1 : s.toList.filter (fun a => (h == a.Value) && decide (a.Value ∈ h :: hs))
          = s.toList.filter (fun opt => h == opt.Value) := by
        apply List.filter_congr
        intro o _
        by_cases e : h = o.Value
        · simp [e]
        · simp [e]
      have e2 : s.toList.filter (fun a => (!(h == a.Value)) && decide (a.Value ∈ h :: hs))
          = (s.toList.filter (fun z => !(h == z.Value))).filter (fun o => decide (o.Value ∈ hs)) := by
        rw [List.filter_filter]
        apply List.filter_congr
        intro o _
        by_cases e : h = o.Value
        · simp [e]
        · have e3 : ¬ o.Value = h := fun e4 => e e4.symm
          simp [e, e3, Bool.and_comm]
      rw [e1, e2]
      rw [h2] at g3
      exact List.Perm.append_left _ g3
    · rw [List.pairwise_append]
      refine ⟨pairwise_of_length_le_one _ _ hone, ?_, ?_⟩
      · refine List.Pairwise.imp_of_mem ?_ g4
        intro a b ha hb hab
        have ha1 := (g3.mem_iff.1 ha)
        have hb1 := (g3.mem_iff.1 hb)
        rw [h2] at ha1 hb1
        have ha2 : a.Value ≠ h := by
          have := (List.mem_filter.1 (List.mem_filter.1 ha1).1).2
          intro e; simp [e] at this
        have hb2 : b.Value ≠ h := by
          have := (List.mem_filter.1 (List.mem_filter.1 hb1).1).2
          intro e; simp [e] at this
        rw [List.indexOf_cons_ne _ ha2.symm, List.indexOf_cons_ne _ hb2.symm]
        omega
      · intro a ha b hb
        have ha2 : h = a.Value := by simpa using (List.mem_filter.1 ha).2
        have hb1 := (g3.mem_iff.1 hb)
        rw [h2] at hb1
        have hb2 : b.Value ≠ h := by
          have := (List.mem_filter.1 (List.mem_filter.1 hb1).1).2
          intro e; simp [e] at this
        rw [← ha2, List.indexOf_cons_self, List.indexOf_cons_ne _ hb2.symm]
        omega

/-! ## Blocks mode: `getValue` and `broadcastEvents` -/

theorem goIndex_of_nonneg {α : Type} (l : List α) (i : Int) (h : 0 ≤ i) :
    goIndex l i = l.get? i.toNat := by
  have : ¬ i < 0 := by omega
  simp [goIndex, this]

theorem getValue_in_range (eventValue v c : String) (cmds : List String) (index : Int)
    (hsplit : strings.Split eventValue "||" = v :: cmds) (h0 : 0 ≤ index)
    (hlt : index < cmds.length) (hc : cmds.get? index.toNat = some c) :
    rofi.getValue eventValue index = .ok { Cmd := c, Value := v } := by
  have hlen : ¬ (v :: cmds).length < 2 := by
    simp only [List.length_cons]
    omega
  have hle : ¬ (cmds.length : Int) ≤ index := by omega
  simp only [rofi.getValue, hsplit, hlen, hle, if_false, goIndex_of_nonneg cmds index h0, hc]

theorem getValue_clamped (eventValue v c : String) (cmds : List String) (index : Int)
    (hsplit : strings.Split eventValue "||" = v :: c :: cmds)
    (hge : ((c :: cmds).length : Int) ≤ index) :
    rofi.getValue eventValue index = .ok { Cmd := c, Value := v } := by
  have hlen : ¬ (v :: c :: cmds).length < 2 := by simp
  simp only [rofi.getValue, hsplit, hlen, hge, if_false, if_true]
  simp [goIndex]

theorem broadcastEvents_cons_custom (ev indexEv : rofi.event) (rest : List rofi.event)
    (val : rofi.Value) (hev : ev.isValid = true) (hname : ev.Name = rofi.eventNameCustomEntry)
    (hiname : indexEv.Name = rofi.eventNameCustomEntryIndex)
    (hval : rofi.getValue ev.Value (strconv.Atoi indexEv.Index).1 = .ok val) :
    rofi.broadcastEvents (ev :: indexEv :: rest) = rofi.Run.send val (rofi.broadcastEvents rest) := by
  simp [rofi.broadcastEvents, hev, hname, hiname, hval]

theorem broadcastEvents_cons_select (ev : rofi.event) (rest : List rofi.event)
    (val : rofi.Value) (hev : ev.isValid = true) (hname : ev.Name = rofi.eventNameSelectedEntry)
    (hval : rofi.getValue ev.Value 0 = .ok val) :
    rofi.broadcastEvents (ev :: rest) = rofi.Run.send val (rofi.broadcastEvents rest) := by
  have hne : ¬ rofi.eventNameSelectedEntry = rofi.eventNameCustomEntry := by decide
  cases rest with
  | nil => simp [rofi.broadcastEvents, hev, hname, hne, hval]
  | cons e rest => simp [rofi.broadcastEvents, hev, hname, hne, hval]

/-! ## Script mode: `Option.Print` and `GetValue` -/

theorem intercalate_go_eq (sep : String) : ∀ (l : List String) (acc : String),
    String.intercalate.go acc sep l = acc ++ sepTail sep l := by
  intro l
  induction l with
  | nil => intro acc; simp [String.intercalate.go, sepTail]
  | cons b l ih =>
    intro acc
    rw [String.intercalate.go, ih, sepTail]
    simp [String.append_assoc]

theorem Join_cons_eq (sep : String) : ∀ (l : List String) (a : String),
    strings.Join (a :: l) sep = a ++ sepTail sep l := by
  intro l
  induction l with
  | nil => intro a; simp [strings.Join, sepTail]
  | cons b l ih =>
    intro a
    rw [strings.Join, ih, sepTail]
    simp [String.append_assoc]

theorem Join_eq_intercalate (sep : String) (l : List String) :
    strings.Join l sep = String.intercalate sep l := by
  cases l with
  | nil => rfl
  | cons a l => rw [Join_cons_eq, String.intercalate, intercalate_go_eq]

/-! ## Claims -/

/-- C1: when the Values of the options are pairwise distinct, the reordering
loop of `SortUsingHistory` (and of `Options.PrioritizeHistory`, which runs the
same statements) returns `P ++ R`: `R` is the options whose Value is not in the
history, in their original order, and `P` is a rearrangement of the options
whose Value is in the history, ordered by the position of their Value in the
history.  In particular `[A,B,C]` with history `[B]` gives `[B,A,C]` and with
history `[C,A]` gives `[C,A,B]`. -/
theorem rofi.SortUsingHistory_distinct_values (opts : List rofi.Option) (history : List String)
    (hdistinct : (opts.map (fun o => o.Value)).Nodup) :
    (∃ P, rofi.SortUsingHistory opts history =
          .ok (P ++ opts.filter (fun o => !decide (o.Value ∈ history))) ∧
        P.Perm (opts.filter (fun o => decide (o.Value ∈ history))) ∧
        P.Pairwise (fun a b => history.indexOf a.Value < history.indexOf b.Value)) ∧
      rofi.PrioritizeHistory opts history = rofi.SortUsingHistory opts history ∧
      rofi.SortUsingHistory [optA, optB, optC] ["B"] = .ok [optB, optA, optC] ∧
      rofi.SortUsingHistory [optA, optB, optC] ["C", "A"] = .ok [optC, optA, optB] := by
  have hs : (GoSlice.ofList opts).toList = opts := by simp [GoSlice.ofList, GoSlice.toList]
  obtain ⟨s1, P, h1, h2, h3, h4⟩ := sortLoop_distinct history (GoSlice.ofList opts) []
    (by simp [GoSlice.ofList]) (by rw [hs]; exact hdistinct)
  rw [hs] at h2 h3
  refine ⟨⟨P, ?_, h3, h4⟩, rfl, by decide, by decide⟩
  simp only [rofi.SortUsingHistory, h1, h2, List.nil_append]

theorem rofi.SortUsingHistory_distinct_values_witness :
    ([optA, optB, optC].map (fun o => o.Value)).Nodup ∧
      ∃ P, rofi.SortUsingHistory [optA, optB, optC] ["C", "A"] =
          .ok (P ++ [optA, optB, optC].filter (fun o => !decide (o.Value ∈ ["C", "A"]))) ∧
        P.Perm ([optA, optB, optC].filter (fun o => decide (o.Value ∈ ["C", "A"]))) ∧
        P.Pairwise (fun a b => ["C", "A"].indexOf a.Value < ["C", "A"].indexOf b.Value) :=
  ⟨by decide, (rofi.SortUsingHistory_distinct_values [optA, optB, optC] ["C", "A"] (by decide)).1⟩

/-- C2: starting from the empty history, after any non-empty sequence of saves
the stored list has at most 5 entries, has no duplicates, and its first entry
is the value saved last. -/
theorem rofi.SaveToHistory_sequence_invariant (vs : List String) (hne : vs ≠ []) :
    ∃ l, rofi.saveAll vs [] = .ok l ∧ l.length ≤ 5 ∧ l.Nodup ∧ l.head? = vs.getLast? :=
  saveAll_invariant vs [] List.nodup_nil hne

theorem rofi.SaveToHistory_sequence_invariant_witness :
    ["a", "b", "c", "d", "e", "f", "b"] ≠ [] ∧
      ∃ l, rofi.saveAll ["a", "b", "c", "d", "e", "f", "b"] [] = .ok l ∧ l.length ≤ 5 ∧
        l.Nodup ∧ l.head? = ["a", "b", "c", "d", "e", "f", "b"].getLast? :=
  ⟨by decide, rofi.SaveToHistory_sequence_invariant ["a", "b", "c", "d", "e", "f", "b"] (by decide)⟩

/-- C3: for a stored history `h` without duplicates and a value `v`, the list
written back by `SaveToHistory` is the first 5 elements of `v` followed by `h`
with `v` removed; the other entries keep their order and what is dropped is a
final segment (the oldest entries). -/
theorem rofi.SaveToHistory_list_update (h : List String) (v : String) (hnd : h.Nodup) :
    rofi.SaveToHistory h v = .ok ((v :: h.filter (fun x => x != v)).take 5) ∧
      ∃ kept dropped, h.filter (fun x => x != v) = kept ++ dropped ∧
        rofi.SaveToHistory h v = .ok (v :: kept) := by
  have hstep := SaveToHistory_of_nodup h v hnd
  refine ⟨hstep, (h.filter (fun x => x != v)).take 4, (h.filter (fun x => x != v)).drop 4,
    (List.take_append_drop _ _).symm, ?_⟩
  rw [hstep]
  rfl

theorem rofi.SaveToHistory_list_update_witness :
    ["a", "b", "c", "d", "e"].Nodup ∧
      (rofi.SaveToHistory ["a", "b", "c", "d", "e"] "c" =
          .ok (("c" :: ["a", "b", "c", "d", "e"].filter (fun x => x != "c")).take 5) ∧
        ∃ kept dropped, ["a", "b", "c", "d", "e"].filter (fun x => x != "c") = kept ++ dropped ∧
          rofi.SaveToHistory ["a", "b", "c", "d", "e"] "c" = .ok ("c" :: kept)) :=
  ⟨by decide, rofi.SaveToHistory_list_update ["a", "b", "c", "d", "e"] "c" (by decide)⟩

/-- C4, as stated, fails: the ACTIVE_ENTRY event with value `a||cmd1||cmd2` is
valid and splits into `[a, cmd1, cmd2]`, the Index `2` of the CUSTOM_KEY event
parses as 2, and `broadcastEvents` sends `{Value: a, Cmd: cmd1}`, not
`{Value: a, Cmd: cmd2}`. -/
theorem rofi.broadcastEvents_custom_key_counterexample :
    rofi.event.isValid { Name := "ACTIVE_ENTRY", Value := "a||cmd1||cmd2" } = true ∧
      strings.Split "a||cmd1||cmd2" "||" = ["a", "cmd1", "cmd2"] ∧
      strconv.Atoi "2" = (2, none) ∧
      (rofi.broadcastEvents [{ Name := "ACTIVE_ENTRY", Value := "a||cmd1||cmd2" },
          { Name := "CUSTOM_KEY", Index := "2" }]).sent = [{ Value := "a", Cmd := "cmd1" }] ∧
      (rofi.broadcastEvents [{ Name := "ACTIVE_ENTRY", Value := "a||cmd1||cmd2" },
          { Name := "CUSTOM_KEY", Index := "2" }]).sent ≠ [{ Value := "a", Cmd := "cmd2" }] := by
  decide

/-- C4, amended: when a valid ACTIVE_ENTRY event whose value splits on `||`
into `v :: cmds` is followed by a CUSTOM_KEY event whose Index parses as an
integer `k >= 1`, `broadcastEvents` uses `k` itself as the zero-based command
index: it sends `{Value: v, Cmd: cmds[k]}` when `k < len(cmds)`, and
`{Value: v, Cmd: cmds[0]}` when `k >= len(cmds) >= 1`; the loop then goes on
with the rest of the stream.  In particular `a||cmd1||cmd2` followed by Index
`1` sends `{a, cmd2}` and followed by Index `2` sends `{a, cmd1}`. -/
theorem rofi.broadcastEvents_custom_key_index (ev indexEv : rofi.event)
    (rest : List rofi.event) (v : String) (cmds : List String) (k : Int)
    (hev : ev.isValid = true) (hname : ev.Name = rofi.eventNameCustomEntry)
    (hsplit : strings.Split ev.Value "||" = v :: cmds)
    (hiname : indexEv.Name = rofi.eventNameCustomEntryIndex)
    (hk : strconv.Atoi indexEv.Index = (k, none)) (h1 : 1 ≤ k) :
    (∀ c, k < cmds.length → cmds.get? k.toNat = some c →
        rofi.broadcastEvents (ev :: indexEv :: rest) =
          rofi.Run.send { Value := v, Cmd := c } (rofi.broadcastEvents rest)) ∧
      (∀ c, (cmds.length : Int) ≤ k → cmds.head? = some c →
        rofi.broadcastEvents (ev :: indexEv :: rest) =
          rofi.Run.send { Value := v, Cmd := c } (rofi.broadcastEvents rest)) ∧
      (rofi.broadcastEvents [{ Name := "ACTIVE_ENTRY", Value := "a||cmd1||cmd2" },
          { Name := "CUSTOM_KEY", Index := "1" }]).sent = [{ Value := "a", Cmd := "cmd2" }] ∧
      (rofi.broadcastEvents [{ Name := "ACTIVE_ENTRY", Value := "a||cmd1||cmd2" },
          { Name := "CUSTOM_KEY", Index := "2" }]).sent = [{ Value := "a", Cmd := "cmd1" }] := by
  refine ⟨?_, ?_, by decide, by decide⟩
  · intro c hlt hc
    apply broadcastEvents_cons_custom ev indexEv rest _ hev hname hiname
    rw [hk]
    exact getValue_in_range ev.Value v c cmds k hsplit (by omega) hlt hc
  · intro c hge hc
    apply broadcastEvents_cons_custom ev indexEv rest _ hev hname hiname
    rw [hk]
    cases cmds with
    | nil => simp at hc
    | cons c1 cs =>
      simp only [List.head?_cons, Option.some.injEq] at hc
      subst hc
      exact getValue_clamped ev.Value v c1 cs k hsplit hge

theorem rofi.broadcastEvents_custom_key_index_witness :
    rofi.event.isValid { Name := "ACTIVE_ENTRY", Value := "a||cmd1||cmd2" } = true ∧
      (1 : Int) ≤ 1 ∧
      (∀ c, (1 : Int) < ["cmd1", "cmd2"].length → ["cmd1", "cmd2"].get? (1 : Int).toNat = some c →
        rofi.broadcastEvents [{ Name := "ACTIVE_ENTRY", Value := "a||cmd1||cmd2" },
            { Name := "CUSTOM_KEY", Index := "1" }] =
          rofi.Run.send { Value := "a", Cmd := c } (rofi.broadcastEvents [])) :=
  ⟨by decide, by decide,
    (rofi.broadcastEvents_custom_key_index { Name := "ACTIVE_ENTRY", Value := "a||cmd1||cmd2" }
      { Name := "CUSTOM_KEY", Index := "1" } [] "a" ["cmd1", "cmd2"] 1 (by decide) (by decide)
      (by decide) (by decide) (by decide) (by decide)).1⟩

/-- C5: a valid SELECT_ENTRY event whose value splits on `||` into
`v :: c1 :: cs` makes `broadcastEvents` send exactly `{Value: v, Cmd: c1}`,
whatever its Index field, and go on with the rest of the stream.  In particular
the value `a||cmd1||cmd2` sends `{Value: a, Cmd: cmd1}`. -/
theorem rofi.broadcastEvents_select_entry (ev : rofi.event) (rest : List rofi.event)
    (v c1 : String) (cs : List String)
    (hev : ev.isValid = true) (hname : ev.Name = rofi.eventNameSelectedEntry)
    (hsplit : strings.Split ev.Value "||" = v :: c1 :: cs) :
    rofi.broadcastEvents (ev :: rest) =
        rofi.Run.send { Value := v, Cmd := c1 } (rofi.broadcastEvents rest) ∧
      (rofi.broadcastEvents [{ Name := "SELECT_ENTRY", Value := "a||cmd1||cmd2", Index := "" }]).sent
        = [{ Value := "a", Cmd := "cmd1" }] := by
  refine ⟨?_, by decide⟩
  apply broadcastEvents_cons_select ev rest _ hev hname
  exact getValue_in_range ev.Value v c1 (c1 :: cs) 0 hsplit (by omega)
    (by simp only [List.length_cons]; omega) (by simp)

theorem rofi.broadcastEvents_select_entry_witness :
    rofi.event.isValid { Name := "SELECT_ENTRY", Value := "a||cmd1||cmd2", Index := "7" } = true ∧
      rofi.broadcastEvents [{ Name := "SELECT_ENTRY", Value := "a||cmd1||cmd2", Index := "7" }] =
        rofi.Run.send { Value := "a", Cmd := "cmd1" } (rofi.broadcastEvents []) :=
  ⟨by decide,
    (rofi.broadcastEvents_select_entry { Name := "SELECT_ENTRY", Value := "a||cmd1||cmd2", Index := "7" }
      [] "a" "cmd1" ["cmd2"] (by decide) (by decide) (by decide)).1⟩

/-- C6: for an Option with a non-empty Name and at least one command,
`Option.Print` writes exactly one line: Name, then (when Category is not empty)
a separator (carriage return when IsMultiline, a space otherwise) and Category,
then NUL, `info`, US (0x1f), Value and the Cmds joined by `|`, then (when Icon
is not empty) US, `icon`, US, Icon.  In particular
`{Name: "Foo", Cmds: ["open"], Value: "v1"}` gives Foo, NUL, info, US, v1|open. -/
theorem rofi.Option.Print_line (o : rofi.Option) (hname : o.Name ≠ "") (hcmds : o.Cmds ≠ []) :
    o.Print =
        [o.Name
          ++ (if o.Category = "" then ""
              else (if o.IsMultiline = true then String.mk [Char.ofNat 13] else " ") ++ o.Category)
          ++ String.mk [Char.ofNat 0] ++ "info" ++ String.mk [Char.ofNat 31]
          ++ String.intercalate "|" (o.Value :: o.Cmds)
          ++ (if o.Icon = "" then ""
              else String.mk [Char.ofNat 31] ++ "icon" ++ String.mk [Char.ofNat 31] ++ o.Icon)] ∧
      rofi.Option.Print { Name := "Foo", Cmds := ["open"], Value := "v1" } =
        ["Foo" ++ String.mk [Char.ofNat 0] ++ "info" ++ String.mk [Char.ofNat 31] ++ "v1|open"] := by
  refine ⟨?_, by decide⟩
  have hlen : ¬ o.Cmds.length < 1 := by
    cases hc : o.Cmds with
    | nil => exact absurd hc hcmds
    | cons a l => simp
  have e1 : "\x00info\x1f" = String.mk [Char.ofNat 0] ++ "info" ++ String.mk [Char.ofNat 31] := by
    decide
  have e2 : "\x1ficon\x1f" = String.mk [Char.ofNat 31] ++ "icon" ++ String.mk [Char.ofNat 31] := by
    decide
  have e3 : "\r" = String.mk [Char.ofNat 13] := by decide
  simp only [rofi.Option.Print, beq_iff_eq, hname, if_false, hlen, bne_iff_ne, ne_eq,
    Join_eq_intercalate, List.singleton_append, e1, e2, e3]
  by_cases hcat : o.Category = "" <;> by_cases hicon : o.Icon = "" <;>
    simp [hcat, hicon, String.append_assoc]

theorem rofi.Option.Print_line_witness :
    optA.Name ≠ "" ∧ optA.Cmds ≠ [] ∧
      optA.Print =
        [optA.Name
          ++ (if optA.Category = "" then ""
              else (if optA.IsMultiline = true then String.mk [Char.ofNat 13] else " ")
                ++ optA.Category)
          ++ String.mk [Char.ofNat 0] ++ "info" ++ String.mk [Char.ofNat 31]
          ++ String.intercalate "|" (optA.Value :: optA.Cmds)
          ++ (if optA.Icon = "" then ""
              else String.mk [Char.ofNat 31] ++ "icon" ++ String.mk [Char.ofNat 31] ++ optA.Icon)] :=
  ⟨by decide, by decide, (rofi.Option.Print_line optA (by decide) (by decide)).1⟩

/-- C7: `Option.Print` writes no line exactly when the Name is empty or the
list of commands is empty, and exactly one line otherwise.  In particular
`{Name: "", Cmds: ["open"]}` gives no line. -/
theorem rofi.Option.Print_skips_iff (o : rofi.Option) :
    (o.Print = [] ↔ (o.Name = "" ∨ o.Cmds = [])) ∧
      o.Print.length = (if o.Name = "" ∨ o.Cmds = [] then 0 else 1) ∧
      rofi.Option.Print { Name := "", Cmds := ["open"] } = [] := by
  have hlen : o.Cmds.length < 1 ↔ o.Cmds = [] := by
    cases o.Cmds with
    | nil => simp
    | cons a l => simp
  refine ⟨?_, ?_, by decide⟩
  · by_cases hn : o.Name = ""
    · simp [rofi.Option.Print, hn]
    · by_cases hc : o.Cmds = []
      · simp [rofi.Option.Print, hn, hc]
      · have hl : ¬ o.Cmds.length < 1 := fun h => hc (hlen.1 h)
        simp [rofi.Option.Print, hn, hc, hl]
  · by_cases hn : o.Name = ""
    · simp [rofi.Option.Print, hn]
    · by_cases hc : o.Cmds = []
      · simp [rofi.Option.Print, hn, hc]
      · have hl : ¬ o.Cmds.length < 1 := fun h => hc (hlen.1 h)
        simp [rofi.Option.Print, hn, hc, hl]

theorem GetValue_in_range (env : rofi.Env) (v c : String) (cmds : List String) (idx : Int)
    (hsplit : strings.Split env.ROFI_INFO "|" = v :: cmds)
    (hinfo : env.ROFI_INFO ≠ "") (hstate : rofi.GetState env ≠ 0)
    (hidx : (if wrapInt (rofi.GetState env - 1) > 8 then wrapInt (rofi.GetState env - 1) - 8
      else wrapInt (rofi.GetState env - 1)) = idx)
    (h0 : 0 ≤ idx) (hlt : idx < cmds.length) (hc : cmds.get? idx.toNat = some c) :
    rofi.GetValue env = .ok (some { Cmd := c, Value := v }) := by
  have hle : ¬ (cmds.length : Int) ≤ idx := by omega
  have hcond : (env.ROFI_INFO != "" && rofi.GetState env != 0) = true := by
    simp [hinfo, hstate]
  simp only [rofi.GetValue, hcond, if_true, hsplit, hidx, hle, if_false,
    goIndex_of_nonneg cmds idx h0, hc]

theorem GetValue_clamped (env : rofi.Env) (v c : String) (cmds : List String) (idx : Int)
    (hsplit : strings.Split env.ROFI_INFO "|" = v :: c :: cmds)
    (hinfo : env.ROFI_INFO ≠ "") (hstate : rofi.GetState env ≠ 0)
    (hidx : (if wrapInt (rofi.GetState env - 1) > 8 then wrapInt (rofi.GetState env - 1) - 8
      else wrapInt (rofi.GetState env - 1)) = idx)
    (hge : ((c :: cmds).length : Int) ≤ idx) :
    rofi.GetValue env = .ok (some { Cmd := c, Value := v }) := by
  have hcond : (env.ROFI_INFO != "" && rofi.GetState env != 0) = true := by
    simp [hinfo, hstate]
  simp only [rofi.GetValue, hcond, if_true, hsplit, hidx, hge]
  simp [goIndex]

theorem info_ne_empty_of_split (info v : String) (cmds : List String)
    (hsplit : strings.Split info "|" = v :: cmds) (hne : cmds ≠ []) : info ≠ "" := by
  intro h
  rw [h] at hsplit
  have e : strings.Split "" "|" = [""] := by decide
  rw [e] at hsplit
  simp only [List.cons.injEq] at hsplit
  exact hne hsplit.2.symm

theorem wrapInt_small (x : Int) (h0 : 0 ≤ x) (h1 : x ≤ 100) : wrapInt x = x := by
  unfold wrapInt
  omega

/-- C8, as stated, fails for the signal 9: with the info payload
`v|c1|...|c9` the claim gives command `c_(9-8) = c1`, while `GetValue` leaves
the index 8 unshifted and returns `c9`. -/
theorem rofi.GetValue_signal_nine_counterexample :
    strings.Split "v|c1|c2|c3|c4|c5|c6|c7|c8|c9" "|" =
        ["v", "c1", "c2", "c3", "c4", "c5", "c6", "c7", "c8", "c9"] ∧
      rofi.GetState { ROFI_INFO := "v|c1|c2|c3|c4|c5|c6|c7|c8|c9", ROFI_RETV := "9" } = 9 ∧
      rofi.GetValue { ROFI_INFO := "v|c1|c2|c3|c4|c5|c6|c7|c8|c9", ROFI_RETV := "9" } =
        .ok (some { Value := "v", Cmd := "c9" }) ∧
      rofi.GetValue { ROFI_INFO := "v|c1|c2|c3|c4|c5|c6|c7|c8|c9", ROFI_RETV := "9" } ≠
        .ok (some { Value := "v", Cmd := "c1" }) := by
  decide

/-- C8, amended: for an info payload that splits on `|` into `v :: cmds`
(`cmds = [c_1, ..., c_m]`) and a signal `s`: if `1 <= s <= 8` and `s <= m` the
result is `{Value: v, Cmd: c_s}`; if `10 <= s <= 16` and `s-8 <= m` the result
is `{Value: v, Cmd: c_(s-8)}`; the signal 9 is not shifted: it gives `c_9` when
`m >= 9` and the first command when `1 <= m <= 8`.  In particular signal 10
with info `x|c1|c2` resolves to `{Value: x, Cmd: c2}`. -/
theorem rofi.GetValue_signal_index (env : rofi.Env) (v : String) (cmds : List String) (s : Int)
    (hsplit : strings.Split env.ROFI_INFO "|" = v :: cmds) (hs : rofi.GetState env = s) :
    (∀ c, 1 ≤ s → s ≤ 8 → s ≤ cmds.length → cmds.get? (s - 1).toNat = some c →
        rofi.GetValue env = .ok (some { Value := v, Cmd := c })) ∧
      (∀ c, 10 ≤ s → s ≤ 16 → s - 8 ≤ cmds.length → cmds.get? (s - 8 - 1).toNat = some c →
        rofi.GetValue env = .ok (some { Value := v, Cmd := c })) ∧
      (∀ c, s = 9 → 9 ≤ cmds.length → cmds.get? 8 = some c →
        rofi.GetValue env = .ok (some { Value := v, Cmd := c })) ∧
      (∀ c, s = 9 → cmds.length ≤ 8 → cmds.head? = some c →
        rofi.GetValue env = .ok (some { Value := v, Cmd := c })) ∧
      rofi.GetValue { ROFI_INFO := "x|c1|c2", ROFI_RETV := "10" } =
        .ok (some { Value := "x", Cmd := "c2" }) := by
  have hne : ∀ c n, cmds.get? n = some c → cmds ≠ [] := by
    intro c n h e
    rw [e] at h
    simp at h
  refine ⟨?_, ?_, ?_, ?_, by decide⟩
  · intro c h1 h8 hm hc
    have hw : wrapInt (s - 1) = s - 1 := wrapInt_small _ (by omega) (by omega)
    exact GetValue_in_range env v c cmds (s - 1) hsplit
      (info_ne_empty_of_split _ v cmds hsplit (hne c _ hc)) (by rw [hs]; omega)
      (by rw [hs, hw]; simp; omega) (by omega) (by omega) hc
  · intro c h10 h16 hm hc
    have hw : wrapInt (s - 1) = s - 1 := wrapInt_small _ (by omega) (by omega)
    have hgt : s - 1 > 8 := by omega
    exact GetValue_in_range env v c cmds (s - 8 - 1) hsplit
      (info_ne_empty_of_split _ v cmds hsplit (hne c _ hc)) (by rw [hs]; omega)
      (by rw [hs, hw, if_pos hgt]; omega) (by omega) (by omega) hc
  · intro c h9 hm hc
    subst h9
    have hw : wrapInt ((9 : Int) - 1) = 8 := by decide
    exact GetValue_in_range env v c cmds 8 hsplit
      (info_ne_empty_of_split _ v cmds hsplit (hne c _ hc)) (by rw [hs]; omega)
      (by rw [hs, hw]; simp) (by omega) (by omega) (by simpa using hc)
  · intro c h9 hm hc
    subst h9
    have hw : wrapInt ((9 : Int) - 1) = 8 := by decide
    cases cmds with
    | nil => simp at hc
    | cons c1 cs =>
      simp only [List.head?_cons, Option.some.injEq] at hc
      subst hc
      exact GetValue_clamped env v c1 cs 8 hsplit
        (info_ne_empty_of_split _ v (c1 :: cs) hsplit (by simp)) (by rw [hs]; omega)
        (by rw [hs, hw]; simp) (by simp only [List.length_cons] at hm ⊢; omega)

theorem rofi.GetValue_signal_index_witness :
    strings.Split "x|c1|c2" "|" = ["x", "c1", "c2"] ∧
      rofi.GetState { ROFI_INFO := "x|c1|c2", ROFI_RETV := "10" } = 10 ∧
      (∀ c, (10 : Int) ≤ 10 → (10 : Int) ≤ 16 → (10 : Int) - 8 ≤ ["c1", "c2"].length →
        ["c1", "c2"].get? ((10 : Int) - 8 - 1).toNat = some c →
        rofi.GetValue { ROFI_INFO := "x|c1|c2", ROFI_RETV := "10" } =
          .ok (some { Value := "x", Cmd := c })) :=
  ⟨by decide, by decide,
    (rofi.GetValue_signal_index { ROFI_INFO := "x|c1|c2", ROFI_RETV := "10" } "x" ["c1", "c2"] 10
      (by decide) (by decide)).2.1⟩

theorem isValid_iff_atoi (e : rofi.event) :
    e.isValid = true ↔
      (rofi.eventName.IsValid e.Name = true ∧
        ((e.Name = rofi.eventNameCustomEntry ∨ e.Name = rofi.eventNameSelectedEntry) →
          e.Value ≠ "") ∧
        (e.Name = rofi.eventNameCustomEntryIndex → 1 ≤ (strconv.Atoi e.Index).1)) := by
  unfold rofi.event.isValid
  by_cases hn : rofi.eventName.IsValid e.Name = true
  · by_cases hv : (e.Name = rofi.eventNameCustomEntry ∨ e.Name = rofi.eventNameSelectedEntry)
    · by_cases hval : e.Value = ""
      · simp [hn, hv, hval]
      · by_cases hk : e.Name = rofi.eventNameCustomEntryIndex
        · by_cases hi : (strconv.Atoi e.Index).1 < 1
          · have : ¬ 1 ≤ (strconv.Atoi e.Index).1 := by omega
            simp [hn, hv, hval, hk, hi, this]
          · have : 1 ≤ (strconv.Atoi e.Index).1 := by omega
            simp [hn, hv, hval, hk, hi, this]
        · simp [hn, hv, hval, hk]
    · have hv1 : ¬ e.Name = rofi.eventNameCustomEntry := fun h => hv (Or.inl h)
      have hv2 : ¬ e.Name = rofi.eventNameSelectedEntry := fun h => hv (Or.inr h)
      have d1 : ¬ rofi.eventNameCustomEntryIndex = rofi.eventNameCustomEntry := by decide
      have d2 : ¬ rofi.eventNameCustomEntryIndex = rofi.eventNameSelectedEntry := by decide
      by_cases hk : e.Name = rofi.eventNameCustomEntryIndex
      · rw [hk] at hn
        by_cases hi : (strconv.Atoi e.Index).1 < 1
        · have : ¬ 1 ≤ (strconv.Atoi e.Index).1 := by omega
          simp [hn, d1, d2, hk, hi, this]
        · have : 1 ≤ (strconv.Atoi e.Index).1 := by omega
          simp [hn, d1, d2, hk, hi, this]
      · simp [hn, hv1, hv2, hk]
  · simp [hn]

/-- C9: `event.isValid` accepts a CUSTOM_KEY event whose Index cannot be parsed
as an integer.  On the Index `99999999999999999999x` the function `Atoi`
reports an error (the digits overflow before the `x` is looked at) and returns
the largest int, which passes the test `i < 1`; the same happens with the
numeral `9223372036854775808`, which does not fit an int.  The error of `Atoi`
is dropped by `isValid`. -/
theorem rofi.event.isValid_accepts_unparsable_index :
    rofi.event.isValid { Name := "CUSTOM_KEY", Index := "99999999999999999999x" } = true ∧
      strconv.Atoi "99999999999999999999x" = (9223372036854775807, some .tooLarge) ∧
      rofi.event.isValid { Name := "CUSTOM_KEY", Index := "9223372036854775808" } = true ∧
      strconv.Atoi "9223372036854775808" = (9223372036854775807, some .tooLarge) := by
  decide

/-- C10: `getValue` does not clamp a negative index: on the event value
`a||cmd1||cmd2`, which splits into a value and two commands, and the index -1
the expression `cmds[index]` panics.  The index -1 reaches `getValue` from
`broadcastEvents` when a valid ACTIVE_ENTRY event is followed by a CUSTOM_KEY
event with Index `-1`. -/
theorem rofi.getValue_negative_index_panics :
    strings.Split "a||cmd1||cmd2" "||" = ["a", "cmd1", "cmd2"] ∧
      rofi.getValue "a||cmd1||cmd2" (-1) = .error .outOfRange ∧
      rofi.broadcastEvents [{ Name := "ACTIVE_ENTRY", Value := "a||cmd1||cmd2" },
          { Name := "CUSTOM_KEY", Index := "-1" }] = { sent := [], stop := .outOfRange } := by
  decide

/-! ## `strings.Split` after `strings.Join` -/

theorem isPrefixOf_append_self (sep rest : List Char) : sep.isPrefixOf (sep ++ rest) = true := by
  induction sep with
  | nil => simp [List.isPrefixOf]
  | cons c sep ih => simp [List.isPrefixOf, ih]

theorem cut_cons (sep : List Char) (c : Char) (rest : List Char) :
    strings.cut sep (c :: rest) =
      if sep.isPrefixOf (c :: rest) then some ([], (c :: rest).drop sep.length)
      else
        match strings.cut sep rest with
        | none => none
        | some (a, b) => some (c :: a, b) := by
  rw [strings.cut]

theorem isPrefixOf_cons_ne (bar c : Char) (sepRest l : List Char) (hc : c ≠ bar) :
    ¬ ((bar :: sepRest).isPrefixOf (c :: l) = true) := by
  have hbc : (bar == c) = false := by simpa using fun e => hc e.symm
  simp [List.isPrefixOf, hbc]

theorem cut_at_first_sep (bar : Char) (sepRest : List Char) (rest : List Char) :
    ∀ (p : List Char), (∀ c ∈ p, c ≠ bar) →
      strings.cut (bar :: sepRest) (p ++ ((bar :: sepRest) ++ rest)) = some (p, rest) := by
  intro p
  induction p with
  | nil =>
    intro _
    have h := isPrefixOf_append_self (bar :: sepRest) rest
    rw [List.nil_append]
    rw [List.cons_append] at h ⊢
    rw [cut_cons, if_pos h, ← List.cons_append, List.drop_left]
  | cons c p ih =>
    intro hp
    have hc : c ≠ bar := hp c (List.mem_cons_self _ _)
    have hrest := ih (fun d hd => hp d (List.mem_cons_of_mem _ hd))
    rw [List.cons_append, cut_cons, if_neg (isPrefixOf_cons_ne bar c sepRest _ hc), hrest]

theorem cut_none_of_no_bar (bar : Char) (sepRest : List Char) :
    ∀ (p : List Char), (∀ c ∈ p, c ≠ bar) → strings.cut (bar :: sepRest) p = none := by
  intro p
  induction p with
  | nil => intro _; rfl
  | cons c p ih =>
    intro hp
    have hc : c ≠ bar := hp c (List.mem_cons_self _ _)
    have hrest := ih (fun d hd => hp d (List.mem_cons_of_mem _ hd))
    rw [cut_cons, if_neg (isPrefixOf_cons_ne bar c sepRest _ hc), hrest]

theorem cut_some_of_contains (sepHead : Char) (sepRest rest : List Char) :
    ∀ (x : List Char), ∃ a b,
      strings.cut (sepHead :: sepRest) (x ++ ((sepHead :: sepRest) ++ rest)) = some (a, b) := by
  intro x
  induction x with
  | nil =>
    have h := isPrefixOf_append_self (sepHead :: sepRest) rest
    rw [List.nil_append]
    rw [List.cons_append] at h ⊢
    exact ⟨[], _, by rw [cut_cons, if_pos h]⟩
  | cons c x ih =>
    obtain ⟨a, b, hab⟩ := ih
    by_cases hpre : (sepHead :: sepRest).isPrefixOf (c :: (x ++ ((sepHead :: sepRest) ++ rest))) = true
    · exact ⟨[], _, by rw [List.cons_append, cut_cons, if_pos hpre]⟩
    · exact ⟨c :: a, b, by rw [List.cons_append, cut_cons, if_neg hpre, hab]⟩

theorem sepTail_cons_data (sep b : String) (l : List String) :
    (sepTail sep (b :: l)).data = sep.data ++ (b.data ++ (sepTail sep l).data) := by
  rw [sepTail, String.data_append, String.data_append, List.append_assoc]

theorem sepTail_length (sep : String) (hsep : sep.data ≠ []) :
    ∀ (l : List String), l.length ≤ (sepTail sep l).data.length := by
  intro l
  induction l with
  | nil => simp
  | cons b l ih =>
    have hpos : 0 < sep.data.length := List.length_pos.2 hsep
    rw [sepTail_cons_data]
    simp only [List.length_cons, List.length_append]
    omega

theorem splitLoop_joined (bar : Char) (sepRest : List Char) (sep : String)
    (hsep : sep.data = bar :: sepRest) :
    ∀ (l : List String) (a : String) (n : Nat), l.length ≤ n →
      (∀ c ∈ a.data, c ≠ bar) → (∀ b ∈ l, ∀ c ∈ b.data, c ≠ bar) →
      strings.splitLoop sep.data n (a.data ++ (sepTail sep l).data) =
        a.data :: l.map String.data := by
  intro l
  induction l with
  | nil =>
    intro a n _ ha _
    have hnone := cut_none_of_no_bar bar sepRest a.data ha
    have e : (sepTail sep []).data = [] := rfl
    rw [e, List.append_nil, hsep]
    cases n with
    | zero => rfl
    | succ n => simp only [strings.splitLoop, hnone, List.map_nil]
  | cons b l ih =>
    intro a n hn ha hl
    cases n with
    | zero => simp at hn
    | succ n =>
      have hcut := cut_at_first_sep bar sepRest (b.data ++ (sepTail sep l).data) a.data ha
      have hrec := ih b n (by simpa using hn) (hl b (List.mem_cons_self _ _))
        (fun b2 hb2 => hl b2 (List.mem_cons_of_mem _ hb2))
      rw [sepTail_cons_data, hsep]
      rw [hsep] at hrec
      simp only [strings.splitLoop, hcut, hrec, List.map_cons]

theorem map_mk_data (l : List String) : (l.map String.data).map String.mk = l := by
  induction l with
  | nil => rfl
  | cons b l ih => rw [List.map_cons, List.map_cons, ih]

theorem Split_Join_of_no_bar (bar : Char) (sepRest : List Char) (sep : String)
    (hsep : sep.data = bar :: sepRest) (a : String) (l : List String)
    (ha : ∀ c ∈ a.data, c ≠ bar) (hl : ∀ b ∈ l, ∀ c ∈ b.data, c ≠ bar) :
    strings.Split (strings.Join (a :: l) sep) sep = a :: l := by
  have hne : sep.data ≠ [] := by rw [hsep]; simp
  have hlen : l.length ≤ (a ++ sepTail sep l).length := by
    have h1 := sepTail_length sep hne l
    rw [String.length_append]
    simp only [String.length]
    omega
  have hsplit := splitLoop_joined bar sepRest sep hsep l a (a ++ sepTail sep l).length hlen ha hl
  rw [Join_cons_eq]
  unfold strings.Split
  rw [if_neg hne, String.data_append, hsplit]
  exact map_mk_data (a :: l)

theorem splitLoop_length_pos (sep : List Char) (n : Nat) (s : List Char) :
    1 ≤ (strings.splitLoop sep n s).length := by
  cases n with
  | zero => simp [strings.splitLoop]
  | succ n =>
    cases h : strings.cut sep s with
    | none => simp [strings.splitLoop, h]
    | some ab => simp [strings.splitLoop, h]

theorem Split_Join_length (sepHead : Char) (sepRest : List Char) (sep : String)
    (hsep : sep.data = sepHead :: sepRest) (a b : String) (l : List String) :
    2 ≤ (strings.Split (strings.Join (a :: b :: l) sep) sep).length := by
  have hne : sep.data ≠ [] := by rw [hsep]; simp
  have hdata : (a ++ sepTail sep (b :: l)).data =
      a.data ++ ((sepHead :: sepRest) ++ (b.data ++ (sepTail sep l).data)) := by
    rw [String.data_append, sepTail_cons_data, hsep]
  obtain ⟨x, y, hxy⟩ := cut_some_of_contains sepHead sepRest (b.data ++ (sepTail sep l).data) a.data
  have hpos : 0 < (a ++ sepTail sep (b :: l)).length := by
    have e : (a ++ sepTail sep (b :: l)).length = (a ++ sepTail sep (b :: l)).data.length := rfl
    rw [e, hdata]
    simp only [List.length_append, List.length_cons]
    omega
  obtain ⟨n, hn⟩ : ∃ n, (a ++ sepTail sep (b :: l)).length = n + 1 := ⟨_, (Nat.succ_pred_eq_of_pos hpos).symm⟩
  rw [Join_cons_eq]
  unfold strings.Split
  rw [if_neg hne, hn, hdata, hsep, List.length_map]
  simp only [strings.splitLoop, hxy, List.length_cons]
  have := splitLoop_length_pos (sepHead :: sepRest) n y
  omega

theorem getValue_total_of_two_parts (eventValue : String) (index : Int)
    (hlen : 2 ≤ (strings.Split eventValue "||").length) (h0 : 0 ≤ index) :
    ∃ val, rofi.getValue eventValue index = .ok val := by
  cases hs : strings.Split eventValue "||" with
  | nil => rw [hs] at hlen; simp at hlen
  | cons v cmds =>
    cases cmds with
    | nil => rw [hs] at hlen; simp at hlen
    | cons c cs =>
      by_cases hlt : index < ((c :: cs).length : Int)
      · have hn : index.toNat < (c :: cs).length := by omega
        exact ⟨_, getValue_in_range eventValue v ((c :: cs)[index.toNat]) (c :: cs) index hs h0 hlt
          (by rw [List.get?_eq_getElem?, List.getElem?_eq_getElem hn])⟩
      · exact ⟨_, getValue_clamped eventValue v c cs index hs (by omega)⟩

/-! ## Blocks mode: `mapOptions` -/

/-- The record that `mapOptions` appends for a printable option. -/
theorem mapOptions_cons_printable (o : rofi.Option) (opts : List rofi.Option)
    (hlabel : o.Label ≠ "") (hcmds : o.Cmds ≠ []) :
    rofi.mapOptions (o :: opts) =
      ({ Text := if o.Category = "" then o.Label
                 else o.Label ++ (if o.IsMultiline = true then "\r" else " ") ++ o.Category,
         Icon := o.Icon,
         Data := strings.Join (o.Value :: o.Cmds) "||",
         Markup := o.UseMarkup,
         Urgent := o.IsUrgent,
         Highlight := o.IsHighlighted } : rofi.blockOption) :: rofi.mapOptions opts := by
  have hlen : ¬ o.Cmds.length < 1 := by
    cases hc : o.Cmds with
    | nil => exact absurd hc hcmds
    | cons a l => simp
  by_cases hcat : o.Category = ""
  · simp [rofi.mapOptions, hlabel, hlen, hcat]
  · simp [rofi.mapOptions, hlabel, hlen, hcat]

theorem mapOptions_cons_skipped (o : rofi.Option) (opts : List rofi.Option)
    (h : o.Label = "" ∨ o.Cmds = []) : rofi.mapOptions (o :: opts) = rofi.mapOptions opts := by
  by_cases hlabel : o.Label = ""
  · simp [rofi.mapOptions, hlabel]
  · rcases h with h | h
    · exact absurd h hlabel
    · simp [rofi.mapOptions, hlabel, h]

theorem mapOptions_mem (opts : List rofi.Option) (b : rofi.blockOption)
    (hb : b ∈ rofi.mapOptions opts) :
    ∃ o ∈ opts, o.Label ≠ "" ∧ o.Cmds ≠ [] ∧ b.Data = strings.Join (o.Value :: o.Cmds) "||" := by
  induction opts with
  | nil => simp [rofi.mapOptions] at hb
  | cons o opts ih =>
    by_cases hskip : o.Label = "" ∨ o.Cmds = []
    · rw [mapOptions_cons_skipped o opts hskip] at hb
      obtain ⟨o2, ho2, h⟩ := ih hb
      exact ⟨o2, List.mem_cons_of_mem _ ho2, h⟩
    · have hlabel : o.Label ≠ "" := fun e => hskip (Or.inl e)
      have hcmds : o.Cmds ≠ [] := fun e => hskip (Or.inr e)
      rw [mapOptions_cons_printable o opts hlabel hcmds] at hb
      rcases List.mem_cons.1 hb with h | h
      · exact ⟨o, List.mem_cons_self _ _, hlabel, hcmds, by rw [h]⟩
      · obtain ⟨o2, ho2, h2⟩ := ih h
        exact ⟨o2, List.mem_cons_of_mem _ ho2, h2⟩

/-! ## Blocks mode: the decoder loop as a state machine -/

theorem broadcastEvents_cons (ev : rofi.event) (rest : List rofi.event) :
    rofi.broadcastEvents (ev :: rest) =
      if !ev.isValid then rofi.broadcastEvents rest
      else if ev.Name == rofi.eventNameCustomEntry then
        match rest with
        | [] => { sent := [], stop := .fatal }
        | indexEv :: rest1 =>
          if indexEv.Name != rofi.eventNameCustomEntryIndex && !indexEv.isValid then
            rofi.broadcastEvents rest1
          else
            match rofi.getValue ev.Value (strconv.Atoi indexEv.Index).1 with
            | .error e => { sent := [], stop := e }
            | .ok val => rofi.Run.send val (rofi.broadcastEvents rest1)
      else
        match rofi.getValue ev.Value 0 with
        | .error e => { sent := [], stop := e }
        | .ok val => rofi.Run.send val (rofi.broadcastEvents rest) := by
  cases rest with
  | nil => simp only [rofi.broadcastEvents]
  | cons indexEv rest1 => simp only [rofi.broadcastEvents]

theorem stateAfter_cons (ev : rofi.event) (rest : List rofi.event) :
    rofi.stateAfter (ev :: rest) =
      if !ev.isValid then rofi.stateAfter rest
      else if ev.Name == rofi.eventNameCustomEntry then
        match rest with
        | [] => .awaitingIndex ev
        | indexEv :: rest1 =>
          if indexEv.Name != rofi.eventNameCustomEntryIndex && !indexEv.isValid then
            rofi.stateAfter rest1
          else
            match rofi.getValue ev.Value (strconv.Atoi indexEv.Index).1 with
            | .error e => .stopped e
            | .ok _ => rofi.stateAfter rest1
      else
        match rofi.getValue ev.Value 0 with
        | .error e => .stopped e
        | .ok _ => rofi.stateAfter rest := by
  cases rest with
  | nil => simp only [rofi.stateAfter]
  | cons indexEv rest1 => simp only [rofi.stateAfter]

theorem broadcastEvents_skip_invalid_idle (e : rofi.event) (ys : List rofi.event)
    (he : e.isValid = false) :
    ∀ (n : Nat) (xs : List rofi.event), xs.length ≤ n → rofi.stateAfter xs = .idle →
      rofi.broadcastEvents (xs ++ e :: ys) = rofi.broadcastEvents (xs ++ ys) := by
  intro n
  induction n with
  | zero =>
    intro xs hlen _
    have hx : xs = [] := List.length_eq_zero.1 (by omega)
    subst hx
    rw [List.nil_append, List.nil_append, broadcastEvents_cons]
    simp [he]
  | succ n ih =>
    intro xs hlen hidle
    cases xs with
    | nil =>
      rw [List.nil_append, List.nil_append, broadcastEvents_cons]
      simp [he]
    | cons ev xs1 =>
      have hlen1 : xs1.length ≤ n := by simpa using hlen
      rw [stateAfter_cons] at hidle
      rw [List.cons_append, List.cons_append, broadcastEvents_cons ev (xs1 ++ e :: ys),
        broadcastEvents_cons ev (xs1 ++ ys)]
      by_cases hv : ev.isValid = true
      · by_cases hc : (ev.Name == rofi.eventNameCustomEntry) = true
        · simp only [hv, hc, Bool.not_true, Bool.false_eq_true, if_false, if_true] at hidle ⊢
          cases xs1 with
          | nil => simp at hidle
          | cons indexEv xs2 =>
            have hlen2 : xs2.length ≤ n := by
              simp only [List.length_cons] at hlen1
              omega
            simp only [List.cons_append] at hidle ⊢
            by_cases hg : (indexEv.Name != rofi.eventNameCustomEntryIndex && !indexEv.isValid) = true
            · simp only [hg, if_true] at hidle ⊢
              exact ih xs2 hlen2 hidle
            · simp only [hg, if_false] at hidle ⊢
              cases hgv : rofi.getValue ev.Value (strconv.Atoi indexEv.Index).1 with
              | error f => rfl
              | ok val =>
                rw [hgv] at hidle
                simp only at hidle ⊢
                rw [ih xs2 hlen2 hidle]
        · simp only [hv, hc, Bool.not_true, Bool.false_eq_true, if_false] at hidle ⊢
          cases hgv : rofi.getValue ev.Value 0 with
          | error f => rfl
          | ok val =>
            rw [hgv] at hidle
            simp only at hidle ⊢
            rw [ih xs1 hlen1 hidle]
      · have hv2 : ev.isValid = false := by simpa using hv
        simp only [hv2, Bool.not_false, if_true] at hidle ⊢
        exact ih xs1 hlen1 hidle

theorem broadcastEvents_discards_unknown_name (ev indexEv : rofi.event) (rest : List rofi.event)
    (hev : ev.isValid = true) (hname : ev.Name = rofi.eventNameCustomEntry)
    (hiname : indexEv.Name ≠ rofi.eventNameCustomEntryIndex) (hinv : indexEv.isValid = false) :
    rofi.broadcastEvents (ev :: indexEv :: rest) = rofi.broadcastEvents rest := by
  simp [rofi.broadcastEvents, hev, hname, hiname, hinv]

/-! ## Claims, continued -/

/-- C11: with the options `[A, B1, B2, C]`, where `B1` and `B2` share the Value
`b`, and the history `[b]`, the loop of `SortUsingHistory` returns
`[B1, A, B2, C]`: after `B1` is deleted, `B2` moves into the cell just visited
and the range loop steps over it, so `B2` is not promoted. -/
theorem rofi.SortUsingHistory_repeated_value_skipped :
    optB1.Value = optB2.Value ∧
      rofi.SortUsingHistory [optA, optB1, optB2, optC] ["b"] = .ok [optB1, optA, optB2, optC] ∧
      rofi.PrioritizeHistory [optA, optB1, optB2, optC] ["b"] = .ok [optB1, optA, optB2, optC] ∧
      rofi.SortUsingHistory [optA, optB1, optB2, optC] ["b"] ≠ .ok [optB1, optB2, optA, optC] := by
  decide

/-- C12: a valid ACTIVE_ENTRY event followed by a CUSTOM_KEY event whose Index
is `0` or `abc`, which `isValid` rejects, is not discarded: `broadcastEvents`
sends `{Value: a, Cmd: cmd1}` for the pair. -/
theorem rofi.broadcastEvents_keeps_invalid_custom_key :
    rofi.event.isValid { Name := "ACTIVE_ENTRY", Value := "a||cmd1||cmd2" } = true ∧
      rofi.event.isValid { Name := "CUSTOM_KEY", Index := "0" } = false ∧
      rofi.event.isValid { Name := "CUSTOM_KEY", Index := "abc" } = false ∧
      (rofi.broadcastEvents [{ Name := "ACTIVE_ENTRY", Value := "a||cmd1||cmd2" },
          { Name := "CUSTOM_KEY", Index := "0" }]).sent = [{ Value := "a", Cmd := "cmd1" }] ∧
      (rofi.broadcastEvents [{ Name := "ACTIVE_ENTRY", Value := "a||cmd1||cmd2" },
          { Name := "CUSTOM_KEY", Index := "abc" }]).sent = [{ Value := "a", Cmd := "cmd1" }] := by
  decide

/-- C13: an invalid event met in Idle has no effect: if the decoder is in Idle
after consuming `xs` and `e` is invalid, the run on `xs ++ [e] ++ ys` is the
run on `xs ++ ys`; in particular the same values are sent. -/
theorem rofi.broadcastEvents_invalid_event_in_idle (xs ys : List rofi.event) (e : rofi.event)
    (he : e.isValid = false) (hidle : rofi.stateAfter xs = .idle) :
    (rofi.broadcastEvents (xs ++ [e] ++ ys)).sent = (rofi.broadcastEvents (xs ++ ys)).sent ∧
      rofi.broadcastEvents (xs ++ [e] ++ ys) = rofi.broadcastEvents (xs ++ ys) := by
  have h := broadcastEvents_skip_invalid_idle e ys he xs.length xs (Nat.le_refl _) hidle
  have e1 : xs ++ [e] ++ ys = xs ++ e :: ys := by simp
  rw [e1, h]
  exact ⟨rfl, rfl⟩

theorem rofi.broadcastEvents_invalid_event_in_idle_witness :
    rofi.event.isValid { Name := "BOGUS", Value := "x||y" } = false ∧
      rofi.stateAfter [{ Name := "SELECT_ENTRY", Value := "a||cmd1" }] = .idle ∧
      (rofi.broadcastEvents ([{ Name := "SELECT_ENTRY", Value := "a||cmd1" }]
          ++ [{ Name := "BOGUS", Value := "x||y" }]
          ++ [{ Name := "SELECT_ENTRY", Value := "b||cmd2" }])).sent =
        (rofi.broadcastEvents ([{ Name := "SELECT_ENTRY", Value := "a||cmd1" }]
          ++ [{ Name := "SELECT_ENTRY", Value := "b||cmd2" }])).sent :=
  ⟨by decide, by decide,
    (rofi.broadcastEvents_invalid_event_in_idle [{ Name := "SELECT_ENTRY", Value := "a||cmd1" }]
      [{ Name := "SELECT_ENTRY", Value := "b||cmd2" }] { Name := "BOGUS", Value := "x||y" }
      (by decide) (by decide)).1⟩

/-- C14: `GetValue` panics on a non-zero signal that is negative (info `x|c1`,
signal -1: the index -2 passes the test `len(cmds) <= index` and `cmds[index]`
is out of range) and on an info payload without a command (info `x`, signal 1:
the index is set to 0 and `cmds[0]` is out of range on the empty slice).  For
signal 0 it returns nil. -/
theorem rofi.GetValue_panics :
    rofi.GetState { ROFI_INFO := "x|c1", ROFI_RETV := "-1" } = -1 ∧
      rofi.GetValue { ROFI_INFO := "x|c1", ROFI_RETV := "-1" } = .error .outOfRange ∧
      strings.Split "x" "|" = ["x"] ∧
      rofi.GetValue { ROFI_INFO := "x", ROFI_RETV := "1" } = .error .outOfRange ∧
      rofi.GetValue { ROFI_INFO := "x|c1", ROFI_RETV := "0" } = .ok none := by
  decide

/-- C15: `mapOptions` returns, in input order, one record for each option with
a non-empty Label and at least one command, and nothing for the others; the
record has text = Label (followed, when Category is not empty, by a carriage
return if IsMultiline or a space otherwise, and Category), icon = Icon, data =
Value and the Cmds joined by `||`, and markup, urgent, highlight equal to
UseMarkup, IsUrgent, IsHighlighted. -/
theorem rofi.mapOptions_lines (opts : List rofi.Option) :
    rofi.mapOptions opts =
      (opts.filter (fun o => decide (o.Label ≠ "" ∧ o.Cmds ≠ []))).map (fun o =>
        ({ Text := if o.Category = "" then o.Label
                   else o.Label ++ (if o.IsMultiline = true then String.mk [Char.ofNat 13] else " ")
                     ++ o.Category,
           Icon := o.Icon,
           Data := String.intercalate "||" (o.Value :: o.Cmds),
           Markup := o.UseMarkup,
           Urgent := o.IsUrgent,
           Highlight := o.IsHighlighted } : rofi.blockOption)) := by
  induction opts with
  | nil => rfl
  | cons o opts ih =>
    by_cases hskip : o.Label = "" ∨ o.Cmds = []
    · have hdec : decide (o.Label ≠ "" ∧ o.Cmds ≠ []) = false := by
        rcases hskip with h | h <;> simp [h]
      rw [mapOptions_cons_skipped o opts hskip, List.filter_cons, hdec, ih]
      simp
    · have hlabel : o.Label ≠ "" := fun e => hskip (Or.inl e)
      have hcmds : o.Cmds ≠ [] := fun e => hskip (Or.inr e)
      have hdec : decide (o.Label ≠ "" ∧ o.Cmds ≠ []) = true := by simp [hlabel, hcmds]
      have e3 : "\r" = String.mk [Char.ofNat 13] := by decide
      rw [mapOptions_cons_printable o opts hlabel hcmds, List.filter_cons, hdec, if_pos rfl,
        List.map_cons, ih, Join_eq_intercalate, e3]

/-- C16: the list update of `SaveToHistory` panics when the stored list is
`[c, c]` and the saved value is `c`: after the first deletion the range loop
reads the stale last cell, which still holds `c`, and `history[i+1:]` is out of
range. -/
theorem rofi.SaveToHistory_panics_on_repeated_value :
    rofi.SaveToHistory ["c", "c"] "c" = .error .outOfRange ∧
      rofi.SaveToHistory ["a", "c", "c"] "c" = .error .outOfRange := by
  decide

/-- C17: the data field of every record produced by `mapOptions` splits on
`||` into at least 2 parts, whatever the strings contain, and `getValue` on
that data with any index >= 0 returns a Value. -/
theorem rofi.mapOptions_data_decodable (opts : List rofi.Option) (b : rofi.blockOption)
    (hb : b ∈ rofi.mapOptions opts) :
    2 ≤ (strings.Split b.Data "||").length ∧
      ∀ index : Int, 0 ≤ index → ∃ val, rofi.getValue b.Data index = .ok val := by
  obtain ⟨o, _, _, hcmds, hdata⟩ := mapOptions_mem opts b hb
  have hlen : 2 ≤ (strings.Split b.Data "||").length := by
    rw [hdata]
    cases hc : o.Cmds with
    | nil => exact absurd hc hcmds
    | cons c cs => exact Split_Join_length '|' ['|'] "||" rfl o.Value c cs
  exact ⟨hlen, fun index h0 => getValue_total_of_two_parts b.Data index hlen h0⟩

theorem rofi.mapOptions_data_decodable_witness :
    ({ Text := "L cat", Data := "v1||open||edit", Urgent := true } : rofi.blockOption)
        ∈ rofi.mapOptions [optA, optL] ∧
      2 ≤ (strings.Split "v1||open||edit" "||").length ∧
      ∀ index : Int, 0 ≤ index → ∃ val, rofi.getValue "v1||open||edit" index = .ok val :=
  ⟨by decide,
    rofi.mapOptions_data_decodable [optA, optL]
      { Text := "L cat", Data := "v1||open||edit", Urgent := true } (by decide)⟩

theorem Print_info_payload (o : rofi.Option) (hname : o.Name ≠ "") (hcmds : o.Cmds ≠ []) :
    ∃ pre post, o.Print =
      [pre ++ "\x00info\x1f" ++ strings.Join ([o.Value] ++ o.Cmds) "|" ++ post] := by
  have hlen : ¬ o.Cmds.length < 1 := by
    cases hc : o.Cmds with
    | nil => exact absurd hc hcmds
    | cons a l => simp
  by_cases hcat : o.Category = "" <;> by_cases hicon : o.Icon = ""
  · exact ⟨o.Name, "", by simp [rofi.Option.Print, hname, hlen, hcat, hicon]⟩
  · exact ⟨o.Name, "\x1ficon\x1f" ++ o.Icon, by
      simp [rofi.Option.Print, hname, hlen, hcat, hicon, String.append_assoc]⟩
  · exact ⟨o.Name ++ (if o.IsMultiline = true then "\r" else " ") ++ o.Category, "", by
      simp [rofi.Option.Print, hname, hlen, hcat, hicon, String.append_assoc]⟩
  · exact ⟨o.Name ++ (if o.IsMultiline = true then "\r" else " ") ++ o.Category,
      "\x1ficon\x1f" ++ o.Icon, by
      simp [rofi.Option.Print, hname, hlen, hcat, hicon, String.append_assoc]⟩

/-- C18: blocks-mode round trip.  For an option with a non-empty Label whose
Value and commands contain no `|`, and for a command `c` at index `k` of its
Cmds, `getValue` applied to the data field that `mapOptions` produces for the
option and to the index `k` returns `{Value: option.Value, Cmd: c}`. -/
theorem rofi.mapOptions_getValue_round_trip (o : rofi.Option) (k : Nat) (c : String)
    (hlabel : o.Label ≠ "") (hv : ∀ ch ∈ o.Value.data, ch ≠ '|')
    (hc : ∀ cmd ∈ o.Cmds, ∀ ch ∈ cmd.data, ch ≠ '|') (hk : o.Cmds.get? k = some c) :
    ∃ b, rofi.mapOptions [o] = [b] ∧
      rofi.getValue b.Data (k : Int) = .ok { Value := o.Value, Cmd := c } := by
  have hcmds : o.Cmds ≠ [] := by
    intro e
    rw [e] at hk
    simp at hk
  have hklt : k < o.Cmds.length := by
    rw [List.get?_eq_getElem?] at hk
    exact (List.getElem?_eq_some_iff.1 hk).1
  have hsplit := Split_Join_of_no_bar '|' ['|'] "||" rfl o.Value o.Cmds hv hc
  refine ⟨_, mapOptions_cons_printable o [] hlabel hcmds, ?_⟩
  exact getValue_in_range _ o.Value c o.Cmds (k : Int) hsplit (by omega) (by omega)
    (by simpa using hk)

theorem rofi.mapOptions_getValue_round_trip_witness :
    optL.Label ≠ "" ∧ optL.Cmds.get? 1 = some "edit" ∧
      ∃ b, rofi.mapOptions [optL] = [b] ∧
        rofi.getValue b.Data ((1 : Nat) : Int) = .ok { Value := optL.Value, Cmd := "edit" } :=
  ⟨by decide, by decide,
    rofi.mapOptions_getValue_round_trip optL 1 "edit" (by decide) (by decide) (by decide)
      (by decide)⟩

/-- C19: script-mode round trip.  For an option with a non-empty Name whose
Value and commands contain no `|`, and for a command `c` at index `k < 8` of
its Cmds, `Option.Print` writes a line whose info payload is Value and the Cmds
joined by `|`, and `GetValue` on that payload with the selection signal `k+1`
returns `{Value: option.Value, Cmd: c}`. -/
theorem rofi.Print_GetValue_round_trip (o : rofi.Option) (env : rofi.Env) (k : Nat) (c : String)
    (hname : o.Name ≠ "") (hv : ∀ ch ∈ o.Value.data, ch ≠ '|')
    (hc : ∀ cmd ∈ o.Cmds, ∀ ch ∈ cmd.data, ch ≠ '|') (hk : o.Cmds.get? k = some c)
    (hk8 : k < 8) (hinfo : env.ROFI_INFO = strings.Join ([o.Value] ++ o.Cmds) "|")
    (hs : rofi.GetState env = (k : Int) + 1) :
    (∃ pre post, o.Print = [pre ++ "\x00info\x1f" ++ env.ROFI_INFO ++ post]) ∧
      rofi.GetValue env = .ok (some { Value := o.Value, Cmd := c }) := by
  have hcmds : o.Cmds ≠ [] := by
    intro e
    rw [e] at hk
    simp at hk
  have hklt : k < o.Cmds.length := by
    rw [List.get?_eq_getElem?] at hk
    exact (List.getElem?_eq_some_iff.1 hk).1
  have hsplit : strings.Split env.ROFI_INFO "|" = o.Value :: o.Cmds := by
    rw [hinfo]
    exact Split_Join_of_no_bar '|' [] "|" rfl o.Value o.Cmds hv hc
  have hw : wrapInt ((k : Int) + 1 - 1) = (k : Int) := by
    have := wrapInt_small ((k : Int) + 1 - 1) (by omega) (by omega)
    rw [this]
    omega
  refine ⟨?_, ?_⟩
  · rw [hinfo]
    exact Print_info_payload o hname hcmds
  · exact GetValue_in_range env o.Value c o.Cmds (k : Int) hsplit
      (info_ne_empty_of_split _ o.Value o.Cmds hsplit hcmds) (by rw [hs]; omega)
      (by
        rw [hs, hw]
        have : ¬ ((k : Int) > 8) := by omega
        simp only [this, if_false])
      (by omega) (by omega) (by simpa using hk)

theorem rofi.Print_GetValue_round_trip_witness :
    optL2.Name ≠ "" ∧ optL2.Cmds.get? 1 = some "edit" ∧
      rofi.GetState { ROFI_INFO := "v1|open|edit", ROFI_RETV := "2" } = ((1 : Nat) : Int) + 1 ∧
      ((∃ pre post, optL2.Print = [pre ++ "\x00info\x1f" ++ "v1|open|edit" ++ post]) ∧
        rofi.GetValue { ROFI_INFO := "v1|open|edit", ROFI_RETV := "2" } =
          .ok (some { Value := optL2.Value, Cmd := "edit" })) :=
  ⟨by decide, by decide, by decide,
    rofi.Print_GetValue_round_trip optL2 { ROFI_INFO := "v1|open|edit", ROFI_RETV := "2" } 1 "edit"
      (by decide) (by decide) (by decide) (by decide) (by decide) (by decide) (by decide)⟩

/-- C20: with the options `[B1, B2]`, which share the Value `b`, and the
history `[b]`, the loop of `SortUsingHistory` (and of `PrioritizeHistory`) does
not complete: after `B1` is deleted the range loop reads the stale last cell,
which holds `B2`, and `opts[i+1:]` is out of range. -/
theorem rofi.SortUsingHistory_panics_on_repeated_value :
    optB1.Value = optB2.Value ∧
      rofi.SortUsingHistory [optB1, optB2] ["b"] = .error .outOfRange ∧
      rofi.PrioritizeHistory [optB1, optB2] ["b"] = .error .outOfRange ∧
      rofi.SortUsingHistory [optA, optB1, optB2] ["b"] = .error .outOfRange := by
  decide

/-! ## What the loops guarantee whenever they complete -/

theorem SaveToHistory_ok_shape (h : List String) (v : String) (l : List String)
    (hok : rofi.SaveToHistory h v = .ok l) :
    l.length ≤ rofi.maxHistoryCount ∧ l.head? = some v := by
  unfold rofi.SaveToHistory at hok
  cases hr : rangeDelete (fun val => val == v) h.length 0 (GoSlice.ofList h, []) with
  | error e => rw [hr] at hok; simp at hok
  | ok st =>
    obtain ⟨s, acc⟩ := st
    rw [hr] at hok
    simp only [rofi.maxHistoryCount] at hok ⊢
    by_cases hc : s.toList.length ≥ 5
    · simp only [hc, if_true, Except.ok.injEq] at hok
      subst hok
      simp
    · simp only [hc, if_false, Except.ok.injEq] at hok
      subst hok
      simp
      omega

theorem deleteAt_ok_decomp {α : Type} (s s1 : GoSlice α) (i : Nat) (x : α)
    (hcap : s.len ≤ s.arr.length) (hget : s.arr.get? i = some x)
    (hdel : s.deleteAt i = .ok s1) :
    ∃ pre post, s.toList = pre ++ x :: post ∧ s1.toList = pre ++ post ∧
      s1.len ≤ s1.arr.length := by
  have hcond : i + 1 ≤ s.len ∧ i ≤ s.arr.length := by
    by_contra hn
    simp [GoSlice.deleteAt, hn] at hdel
  have hi : i < s.arr.length := by omega
  have hx : s.arr[i] = x := by
    rw [List.get?_eq_getElem?, List.getElem?_eq_getElem hi] at hget
    exact Option.some.inj hget
  let pre := s.arr.take i
  let post := (s.arr.drop (i + 1)).take (s.len - (i + 1))
  let rest := s.arr.drop s.len
  have hprelen : pre.length = i := by simp [pre]; omega
  have hpostlen : post.length = s.len - (i + 1) := by simp [post]; omega
  have harr : s.arr = pre ++ x :: (post ++ rest) := by
    have h1 : s.arr = s.arr.take i ++ s.arr.drop i := (List.take_append_drop i s.arr).symm
    have h2 : s.arr.drop i = s.arr[i] :: s.arr.drop (i + 1) := List.drop_eq_getElem_cons hi
    have h3 : s.arr.drop (i + 1) = post ++ rest := by
      have h4 := (List.take_append_drop (s.len - (i + 1)) (s.arr.drop (i + 1))).symm
      have h5 : (s.arr.drop (i + 1)).drop (s.len - (i + 1)) = s.arr.drop s.len := by
        rw [List.drop_drop]
        congr 1
        omega
      rw [h5] at h4
      exact h4
    rw [h2, h3, hx] at h1
    exact h1
  have hlen : s.len = pre.length + (post.length + 1) := by omega
  have hd := GoSlice.deleteAt_decomp s pre post rest x harr hlen
  rw [hprelen] at hd
  rw [hd] at hdel
  have hs1 : s1 = { arr := pre ++ (post ++ ((x :: post).drop post.length ++ rest)),
                    len := i + post.length } := (Except.ok.inj hdel).symm
  refine ⟨pre, post, ?_, ?_, ?_⟩
  · have e : s.len = (pre ++ x :: post).length := by simp; omega
    have e2 : pre ++ x :: (post ++ rest) = (pre ++ x :: post) ++ rest := by simp
    rw [GoSlice.toList, harr, e2, e, List.take_left]
  · have e : i + post.length = (pre ++ post).length := by simp; omega
    rw [hs1, GoSlice.toList]
    simp only
    rw [e, ← List.append_assoc, List.take_left]
  · rw [hs1]
    simp
    omega

theorem rangeDelete_ok_perm {α : Type} (p : α → Bool) (k : Nat) :
    ∀ (i : Nat) (s s1 : GoSlice α) (acc acc1 : List α), s.len ≤ s.arr.length →
      rangeDelete p k i (s, acc) = .ok (s1, acc1) →
      (acc1 ++ s1.toList).Perm (acc ++ s.toList) ∧ s1.len ≤ s1.arr.length := by
  induction k with
  | zero =>
    intro i s s1 acc acc1 hcap hok
    simp only [rangeDelete, Except.ok.injEq, Prod.mk.injEq] at hok
    obtain ⟨h1, h2⟩ := hok
    subst h1 h2
    exact ⟨List.Perm.refl _, hcap⟩
  | succ k ih =>
    intro i s s1 acc acc1 hcap hok
    cases hget : s.arr.get? i with
    | none =>
      simp only [rangeDelete, hget] at hok
      cases hok
    | some x =>
      cases hpx : p x with
      | false =>
        simp only [rangeDelete, hget, hpx] at hok
        exact ih (i + 1) s s1 acc acc1 hcap (by simpa using hok)
      | true =>
        cases hdel : s.deleteAt i with
        | error e =>
          simp only [rangeDelete, hget, hpx, hdel] at hok
          cases hok
        | ok s2 =>
          simp only [rangeDelete, hget, hpx, hdel] at hok
          obtain ⟨pre, post, e1, e2, hcap2⟩ := deleteAt_ok_decomp s s2 i x hcap hget hdel
          obtain ⟨hperm, hcap1⟩ := ih (i + 1) s2 s1 (acc ++ [x]) acc1 hcap2 (by simpa using hok)
          refine ⟨hperm.trans ?_, hcap1⟩
          rw [e1, e2, List.append_assoc]
          apply List.Perm.append_left
          simpa using (@List.perm_middle _ x pre post).symm

theorem sortLoop_ok_perm : ∀ (history : List String) (s s1 : GoSlice rofi.Option)
    (prio prio1 : List rofi.Option), s.len ≤ s.arr.length →
    rofi.sortLoop history (s, prio) = .ok (s1, prio1) →
    (prio1 ++ s1.toList).Perm (prio ++ s.toList) := by
  intro history
  induction history with
  | nil =>
    intro s s1 prio prio1 _ hok
    simp only [rofi.sortLoop, Except.ok.injEq, Prod.mk.injEq] at hok
    obtain ⟨h1, h2⟩ := hok
    subst h1 h2
    exact List.Perm.refl _
  | cons h hs ih =>
    intro s s1 prio prio1 hcap hok
    cases hstep : rofi.sortStep (s, prio) h with
    | error e => simp [rofi.sortLoop, hstep] at hok
    | ok st =>
      obtain ⟨s2, prio2⟩ := st
      simp only [rofi.sortLoop, hstep] at hok
      obtain ⟨hperm, hcap2⟩ := rangeDelete_ok_perm _ s.len 0 s s2 prio prio2 hcap hstep
      exact (ih s2 s1 prio2 prio1 hcap2 hok).trans hperm

theorem SortUsingHistory_ok_perm (opts r : List rofi.Option) (history : List String)
    (hok : rofi.SortUsingHistory opts history = .ok r) : r.Perm opts := by
  unfold rofi.SortUsingHistory at hok
  cases hl : rofi.sortLoop history (GoSlice.ofList opts, []) with
  | error e => rw [hl] at hok; simp at hok
  | ok st =>
    obtain ⟨s, prio⟩ := st
    rw [hl] at hok
    simp only [Except.ok.injEq] at hok
    subst hok
    have h := sortLoop_ok_perm history (GoSlice.ofList opts) s [] prio
      (by simp [GoSlice.ofList]) hl
    simpa [GoSlice.ofList, GoSlice.toList] using h

theorem parseSigned_bounds (neg : Bool) (digits : List Char) :
    strconv.minInt64 ≤ (strconv.parseSigned neg digits).1 ∧
      (strconv.parseSigned neg digits).1 ≤ strconv.maxInt64 := by
  unfold strconv.parseSigned
  rcases h : strconv.ParseUint digits with ⟨un, err⟩
  rcases err with _ | err
  · simp only [strconv.minInt64, strconv.maxInt64]
    split_ifs <;> constructor <;> simp_all <;> omega
  · cases err with
    | malformed => simp [strconv.minInt64, strconv.maxInt64]
    | tooLarge =>
      simp only [strconv.minInt64, strconv.maxInt64]
      split_ifs <;> constructor <;> simp_all <;> omega

theorem Atoi_bounds (s : String) :
    strconv.minInt64 ≤ (strconv.Atoi s).1 ∧ (strconv.Atoi s).1 ≤ strconv.maxInt64 := by
  unfold strconv.Atoi
  split
  · simp [strconv.minInt64, strconv.maxInt64]
  · exact parseSigned_bounds false _
  · exact parseSigned_bounds true _
  · exact parseSigned_bounds false _

theorem wrapInt_of_int64 (x : Int) (h0 : -9223372036854775808 ≤ x)
    (h1 : x ≤ 9223372036854775807) : wrapInt x = x := by
  unfold wrapInt
  omega

theorem GetValue_total_of_positive_signal (env : rofi.Env) (v c : String) (cs : List String)
    (hsplit : strings.Split env.ROFI_INFO "|" = v :: c :: cs) (hs : 1 ≤ rofi.GetState env) :
    ∃ cmd, rofi.GetValue env = .ok (some { Value := v, Cmd := cmd }) := by
  have hb := Atoi_bounds env.ROFI_RETV
  simp only [strconv.minInt64, strconv.maxInt64] at hb
  have hst : rofi.GetState env = (strconv.Atoi env.ROFI_RETV).1 := rfl
  have hw : wrapInt (rofi.GetState env - 1) = rofi.GetState env - 1 :=
    wrapInt_of_int64 _ (by omega) (by omega)
  have hinfo := info_ne_empty_of_split env.ROFI_INFO v (c :: cs) hsplit (by simp)
  have hidx0 : 0 ≤ (if wrapInt (rofi.GetState env - 1) > 8 then wrapInt (rofi.GetState env - 1) - 8
      else wrapInt (rofi.GetState env - 1)) := by
    rw [hw]
    split_ifs <;> omega
  by_cases hlt : (if wrapInt (rofi.GetState env - 1) > 8 then wrapInt (rofi.GetState env - 1) - 8
      else wrapInt (rofi.GetState env - 1)) < ((c :: cs).length : Int)
  · have hn : (if wrapInt (rofi.GetState env - 1) > 8 then wrapInt (rofi.GetState env - 1) - 8
        else wrapInt (rofi.GetState env - 1)).toNat < (c :: cs).length := by omega
    exact ⟨_, GetValue_in_range env v _ (c :: cs) _ hsplit hinfo (by omega) rfl hidx0 hlt
      (by rw [List.get?_eq_getElem?, List.getElem?_eq_getElem hn])⟩
  · exact ⟨c, GetValue_clamped env v c cs _ hsplit hinfo (by omega) rfl (by omega)⟩

/-- When the state after `xs` is Idle, the loop has sent some values and goes
on with the rest of the stream as if it started there. -/
theorem broadcastEvents_append_of_idle :
    ∀ (n : Nat) (xs : List rofi.event), xs.length ≤ n → rofi.stateAfter xs = .idle →
      ∃ sent, ∀ ys, rofi.broadcastEvents (xs ++ ys) =
        { sent := sent ++ (rofi.broadcastEvents ys).sent, stop := (rofi.broadcastEvents ys).stop } := by
  intro n
  induction n with
  | zero =>
    intro xs hlen _
    have hx : xs = [] := List.length_eq_zero.1 (by omega)
    subst hx
    exact ⟨[], fun ys => by simp⟩
  | succ n ih =>
    intro xs hlen hidle
    cases xs with
    | nil => exact ⟨[], fun ys => by simp⟩
    | cons ev xs1 =>
      have hlen1 : xs1.length ≤ n := by simpa using hlen
      rw [stateAfter_cons] at hidle
      by_cases hv : ev.isValid = true
      · by_cases hc : (ev.Name == rofi.eventNameCustomEntry) = true
        · simp only [hv, hc, Bool.not_true, Bool.false_eq_true, if_false, if_true] at hidle
          cases xs1 with
          | nil => simp at hidle
          | cons indexEv xs2 =>
            have hlen2 : xs2.length ≤ n := by
              simp only [List.length_cons] at hlen1
              omega
            simp only at hidle
            by_cases hg : (indexEv.Name != rofi.eventNameCustomEntryIndex && !indexEv.isValid) = true
            · simp only [hg, if_true] at hidle
              obtain ⟨sent, hsent⟩ := ih xs2 hlen2 hidle
              refine ⟨sent, fun ys => ?_⟩
              rw [List.cons_append, List.cons_append, broadcastEvents_cons]
              simp only [hv, hc, hg, Bool.not_true, Bool.false_eq_true, if_false, if_true]
              exact hsent ys
            · simp only [hg, if_false] at hidle
              cases hgv : rofi.getValue ev.Value (strconv.Atoi indexEv.Index).1 with
              | error f => rw [hgv] at hidle; simp at hidle
              | ok val =>
                rw [hgv] at hidle
                simp only at hidle
                obtain ⟨sent, hsent⟩ := ih xs2 hlen2 hidle
                refine ⟨val :: sent, fun ys => ?_⟩
                rw [List.cons_append, List.cons_append, broadcastEvents_cons]
                simp only [hv, hc, hg, hgv, Bool.not_true, Bool.false_eq_true, if_false, if_true]
                rw [hsent ys]
                rfl
        · simp only [hv, hc, Bool.not_true, Bool.false_eq_true, if_false] at hidle
          cases hgv : rofi.getValue ev.Value 0 with
          | error f => rw [hgv] at hidle; simp at hidle
          | ok val =>
            rw [hgv] at hidle
            simp only at hidle
            obtain ⟨sent, hsent⟩ := ih xs1 hlen1 hidle
            refine ⟨val :: sent, fun ys => ?_⟩
            rw [List.cons_append, broadcastEvents_cons]
            simp only [hv, hc, hgv, Bool.not_true, Bool.false_eq_true, if_false]
            rw [hsent ys]
            rfl
      · have hv2 : ev.isValid = false := by simpa using hv
        simp only [hv2, Bool.not_false, if_true] at hidle
        obtain ⟨sent, hsent⟩ := ih xs1 hlen1 hidle
        refine ⟨sent, fun ys => ?_⟩
        rw [List.cons_append, broadcastEvents_cons]
        simp only [hv2, Bool.not_false, if_true]
        exact hsent ys
